import Mathlib

/-!
# Verification of the corn-maze CAD geometry and constraint engine

A shallow embedding, in Lean 4, of the parts of the `core-engine` package
that the specification's testable properties talk about:

* `geometry/operations.py` — `carve_path`, `smooth_buffer`, `_densify_coords`,
  `_subdivide_arc`, `_circumscribed_circle`, `_arc_midpoint`;
* `mazification/generators.py` — `generate_standing_rows`;
* `analysis/pathfinding.py` — `_rasterize_walls`, `find_path`, `is_solvable`,
  `calculate_path_length`;
* `analysis/emergency.py` — `suggest_emergency_exits`;
* `constraints/engine.py` — `ConstraintEngine.validate` and its five checks.

Geometry is modelled over exact reals: shapely geometries become sets of
points of `ℝ × ℝ`, polylines become lists of vertices, buffers become true
Euclidean neighbourhoods.  Geometric primitives that shapely computes
numerically and that the verified properties do not depend on (distance
between two polylines, nearest points, point-in-polygon tests, the centroid,
projection onto the boundary ring) are supplied as explicit oracle
parameters, so every theorem quantifies over them.  Python peculiarities are
modelled explicitly: `int()` truncates toward zero (`pyTrunc`), `round(x, 2)`
rounds to two decimals (`round2`), a geometry is truthy iff it is non-empty,
and unbounded `while` loops become fuel-indexed recursions whose theorems
hold for every fuel value.
-/

open scoped Classical

noncomputable section

/-! ## Basic geometric vocabulary -/

/-- A point of the projected plane, coordinates in metres. -/
abbrev Pt : Type := ℝ × ℝ

/-- Squared Euclidean distance between two points. -/
def dist2 (p q : Pt) : ℝ := (p.1 - q.1) ^ 2 + (p.2 - q.2) ^ 2

/-- Euclidean distance between two points. -/
def ptDist (p q : Pt) : ℝ := Real.sqrt (dist2 p q)

/-- `int()` of Python: truncation toward zero. -/
def pyTrunc (x : ℝ) : ℤ := if x < 0 then ⌈x⌉ else ⌊x⌋

/-- `round(x, 2)` of Python: round to two decimal places. -/
def round2 (x : ℝ) : ℝ := (round (100 * x) : ℤ) / 100

/-- Round both coordinates of a point to two decimals. -/
def round2Pt (p : Pt) : Pt := (round2 p.1, round2 p.2)

/-- The closed segment between `a` and `b` as a point set. -/
def lineSeg (a b : Pt) : Set Pt :=
  {p | ∃ t : ℝ, 0 ≤ t ∧ t ≤ 1 ∧
    p = ((1 - t) * a.1 + t * b.1, (1 - t) * a.2 + t * b.2)}

/-- A `LineString` through `pts` as a point set: the union of the segments
between consecutive vertices. -/
def polyline (pts : List Pt) : Set Pt :=
  {p | ∃ ab ∈ pts.zip pts.tail, p ∈ lineSeg ab.1 ab.2}

/-- Round-cap buffer: all points within distance `r` of the set `L`.
`smooth_buffer` in the source is shapely's `buffer` with 90 segments per
quadrant; the exact model is the true Euclidean neighbourhood. -/
def buffer (L : Set Pt) (r : ℝ) : Set Pt :=
  {p | ∃ q ∈ L, ptDist p q ≤ r}

/-! ## `carve_path` (geometry/operations.py, lines 254–300)

`carve_path(walls, points, width, field_boundary)` raises `ValueError` when
fewer than two points are given; otherwise it buffers the polyline by
`width / 2` (round caps), and — when the field boundary argument is truthy
(in Python a geometry is truthy iff non-empty) and the eraser does not
intersect it — returns the walls unchanged together with the warning
`"Path outside field boundary"`; otherwise it subtracts the eraser. -/

/-- Model of `carve_path`.  The raised `ValueError` becomes `Except.error`. -/
def carve_path (walls : Set Pt) (points : List Pt) (width : ℝ)
    (field_boundary : Option (Set Pt)) : Except String (Set Pt × Option String) :=
  if points.length < 2 then
    Except.error "Path too short (need at least 2 points)"
  else
    match field_boundary with
    | some B =>
        if B.Nonempty ∧ buffer (polyline points) (width / 2) ∩ B = ∅ then
          Except.ok (walls, some "Path outside field boundary")
        else
          Except.ok (walls \ buffer (polyline points) (width / 2), none)
    | none => Except.ok (walls \ buffer (polyline points) (width / 2), none)

end

/-! ### C10: the short-path error branch -/

/-- **C10.** `carve_path` raises `ValueError "Path too short (need at least 2
points)"` exactly when the points list has fewer than 2 points; with at least
2 points it always returns an `(updated walls, warning)` pair. -/
theorem carve_path_short_error_iff (walls : Set Pt) (points : List Pt)
    (width : ℝ) (fb : Option (Set Pt)) :
    (carve_path walls points width fb =
        Except.error "Path too short (need at least 2 points)" ↔
      points.length < 2) ∧
    (2 ≤ points.length →
      ∃ res warn, carve_path walls points width fb = Except.ok (res, warn)) := by
  constructor
  · constructor
    · intro h
      by_contra hlen
      rw [carve_path.eq_def, if_neg hlen] at h
      cases fb with
      | none => simp at h
      | some B =>
          by_cases hB : B.Nonempty ∧ buffer (polyline points) (width / 2) ∩ B = ∅
          · simp only [hB, if_true] at h
            exact Except.noConfusion h
          · simp only [hB, if_false] at h
            exact Except.noConfusion h
    · intro h
      rw [carve_path.eq_def, if_pos h]
  · intro h
    have hlen : ¬ points.length < 2 := by omega
    rw [carve_path.eq_def, if_neg hlen]
    cases fb with
    | none => exact ⟨_, _, rfl⟩
    | some B =>
        dsimp only
        by_cases hB : B.Nonempty ∧ buffer (polyline points) (width / 2) ∩ B = ∅
        · rw [if_pos hB]; exact ⟨_, _, rfl⟩
        · rw [if_neg hB]; exact ⟨_, _, rfl⟩

/-- Witness for C10 at a concrete input: two points, no error. -/
theorem carve_path_short_error_iff_witness :
    2 ≤ ([((0 : ℝ), (0 : ℝ)), (1, 0)] : List Pt).length ∧
    ∃ res warn, carve_path ∅ [((0 : ℝ), (0 : ℝ)), (1, 0)] 3 none =
      Except.ok (res, warn) :=
  ⟨by norm_num,
    (carve_path_short_error_iff ∅ [((0 : ℝ), (0 : ℝ)), (1, 0)] 3 none).2
      (by norm_num)⟩

/-! ### C4: the outside-field warning

The source guard is `if field_boundary and not eraser.intersects(field_boundary)`;
in Python an *empty* geometry is falsy, so a non-null but empty field boundary
skips the warning branch and the walls are modified with no warning.  The
claim as stated (any non-null boundary) is therefore false; it holds for any
non-empty boundary. -/

/-- **C4 (counterexample).** With the non-null but *empty* field boundary,
an eraser that trivially does not intersect it, and walls meeting the eraser,
`carve_path` does not return the walls unchanged with the warning: it takes
the difference branch and returns no warning. -/
theorem carve_path_outside_warning_counterexample :
    (some (∅ : Set Pt) ≠ (none : Option (Set Pt))) ∧
    buffer (polyline [((0 : ℝ), (0 : ℝ)), (1, 0)]) (1 / 2) ∩ (∅ : Set Pt) = ∅ ∧
    carve_path {((0 : ℝ), (0 : ℝ))} [((0 : ℝ), (0 : ℝ)), (1, 0)] 1 (some ∅) ≠
      Except.ok ({((0 : ℝ), (0 : ℝ))}, some "Path outside field boundary") := by
  refine ⟨by simp, by simp, ?_⟩
  have hlen : ¬ ([((0 : ℝ), (0 : ℝ)), (1, 0)] : List Pt).length < 2 := by norm_num
  rw [carve_path.eq_def, if_neg hlen]
  dsimp only
  rw [if_neg (by simp [Set.not_nonempty_empty])]
  simp

/-- **C4 (amended).** For a polyline of at least two points and a *non-empty*
field boundary `B`, if the eraser (the polyline buffered by `width / 2`,
round caps) does not intersect `B`, then `carve_path` succeeds, returns the
walls unchanged, and attaches the warning `"Path outside field boundary"`
to the successful result rather than raising an error. -/
theorem carve_path_outside_warning (walls : Set Pt) (points : List Pt)
    (width : ℝ) (B : Set Pt) (hlen : 2 ≤ points.length) (hB : B.Nonempty)
    (hout : buffer (polyline points) (width / 2) ∩ B = ∅) :
    carve_path walls points width (some B) =
      Except.ok (walls, some "Path outside field boundary") := by
  rw [carve_path.eq_def, if_neg (by omega)]
  dsimp only
  rw [if_pos ⟨hB, hout⟩]

/-- Witness for the amended C4 at a concrete input: a two-point stroke far
away from a one-point boundary set. -/
theorem carve_path_outside_warning_witness :
    (2 ≤ ([((0 : ℝ), (0 : ℝ)), (1, 0)] : List Pt).length ∧
      ({((10 : ℝ), (10 : ℝ))} : Set Pt).Nonempty ∧
      buffer (polyline [((0 : ℝ), (0 : ℝ)), (1, 0)]) (1 / 2) ∩
        {((10 : ℝ), (10 : ℝ))} = ∅) ∧
    carve_path ∅ [((0 : ℝ), (0 : ℝ)), (1, 0)] 1 (some {((10 : ℝ), (10 : ℝ))}) =
      Except.ok (∅, some "Path outside field boundary") := by
  have hout : buffer (polyline [((0 : ℝ), (0 : ℝ)), (1, 0)]) (1 / 2) ∩
      {((10 : ℝ), (10 : ℝ))} = ∅ := by
    ext p
    simp only [Set.mem_inter_iff, Set.mem_singleton_iff, Set.mem_empty_iff_false,
      iff_false, not_and]
    rintro ⟨q, hq, hdist⟩ rfl
    obtain ⟨ab, hab, hs⟩ := hq
    simp only [List.zip, List.zipWith, List.tail_cons, List.mem_cons,
      List.not_mem_nil, or_false] at hab
    subst hab
    obtain ⟨t, ht0, ht1, rfl⟩ := hs
    have h2 : (100 : ℝ) ≤ dist2 ((10 : ℝ), (10 : ℝ))
        ((1 - t) * 0 + t * 1, (1 - t) * 0 + t * 0) := by
      simp only [dist2]
      nlinarith
    have h10 : (10 : ℝ) ≤ ptDist ((10 : ℝ), (10 : ℝ))
        ((1 - t) * 0 + t * 1, (1 - t) * 0 + t * 0) := by
      rw [ptDist]
      exact (Real.le_sqrt' (by norm_num)).mpr (by nlinarith [h2])
    linarith
  exact ⟨⟨by norm_num, ⟨_, rfl⟩, hout⟩,
    carve_path_outside_warning ∅ _ 1 _ (by norm_num) ⟨_, rfl⟩ hout⟩

/-! ## `generate_standing_rows` (mazification/generators.py, lines 444–513)

The working area is the field or, when `headland_inset > 0` and the negative
buffer is non-empty with positive area, that negative buffer (for a
MultiPolygon result the source keeps the largest part; the part selection is
the oracle `sel`, constrained only by `sel S ⊆ S`, which also covers the
single-polygon case with the identity).  The working area is rotated about
its centroid (oracle `centroid`; the theorems hold for any centroid), the
rotated bounds are taken, candidate vertical lines are generated, clipped
against the rotated working area, unioned, rotated back, and intersected
once more with the working area. -/

noncomputable section

/-- `field.buffer(-h)` modelled as morphological erosion. -/
def erode (F : Set Pt) (h : ℝ) : Set Pt :=
  {p | ∀ q : Pt, ptDist p q ≤ h → q ∈ F}

/-- Counter-clockwise rotation by `deg` degrees about `c` (shapely `rotate`). -/
def rotatePt (deg : ℝ) (c : Pt) (p : Pt) : Pt :=
  (c.1 + Real.cos (deg * Real.pi / 180) * (p.1 - c.1) -
     Real.sin (deg * Real.pi / 180) * (p.2 - c.2),
   c.2 + Real.sin (deg * Real.pi / 180) * (p.1 - c.1) +
     Real.cos (deg * Real.pi / 180) * (p.2 - c.2))

/-- Rotation of a whole geometry. -/
def rotateSet (deg : ℝ) (c : Pt) (S : Set Pt) : Set Pt := rotatePt deg c '' S

/-- The working area: the headland inset of the field when requested and
usable (`not inset.is_empty and inset.area > 0`), otherwise the field. -/
def working_area (sel : Set Pt → Set Pt) (F : Set Pt) (headland_inset : ℝ) :
    Set Pt :=
  if 0 < headland_inset ∧ (erode F headland_inset).Nonempty ∧
      0 < MeasureTheory.volume (erode F headland_inset) then
    sel (erode F headland_inset)
  else F

/-- `num_rows = int((maxx - minx) / row_spacing) + 2`; `range` of a negative
count is empty, hence `Int.toNat`. -/
def num_standing_rows (minx maxx s : ℝ) : ℕ :=
  (pyTrunc ((maxx - minx) / s) + 2).toNat

/-- Candidate row `i`: the vertical line at `x = minx + i * spacing` from
`(x, miny - spacing)` to `(x, maxy + spacing)`. -/
def rowLine (minx miny maxy s : ℝ) (i : ℕ) : Set Pt :=
  lineSeg (minx + i * s, miny - s) (minx + i * s, maxy + s)

/-- The union of the candidate lines clipped against the rotated working
area (`line.intersection(rotated)`; empty clips contribute nothing). -/
def standingUnion (rotated : Set Pt) (minx miny maxx maxy s : ℝ) : Set Pt :=
  {p | ∃ i : ℕ, i < num_standing_rows minx maxx s ∧
    p ∈ rowLine minx miny maxy s i ∩ rotated}

/-- Model of `generate_standing_rows` (the geometry pipeline; the two
`ValueError` guards on missing arguments precede it in the source). -/
def generate_standing_rows (sel : Set Pt → Set Pt) (centroid : Set Pt → Pt)
    (F : Set Pt) (direction_deg headland_inset row_spacing : ℝ) : Set Pt :=
  let W := working_area sel F headland_inset
  let rc := centroid W
  let rotated := rotateSet direction_deg rc W
  let minx := sInf (Prod.fst '' rotated)
  let maxx := sSup (Prod.fst '' rotated)
  let miny := sInf (Prod.snd '' rotated)
  let maxy := sSup (Prod.snd '' rotated)
  let standing := standingUnion rotated minx miny maxx maxy row_spacing
  let back :=
    if direction_deg ≠ 0 then rotateSet (-direction_deg) rc standing
    else standing
  back ∩ W

end

/-- The working area is always contained in the field. -/
theorem working_area_subset (sel : Set Pt → Set Pt) (F : Set Pt) (h : ℝ)
    (hsel : ∀ S, sel S ⊆ S) : working_area sel F h ⊆ F := by
  rw [working_area]
  split
  · next hc =>
      intro p hp
      have hp' : p ∈ erode F h := hsel _ hp
      exact hp' p (by simp [ptDist, dist2, Real.sqrt_zero, le_of_lt hc.1])
  · exact fun p hp => hp

/-! ### C1: standing rows stay inside the working area and the field -/

/-- **C1.** For every field `F`, planting direction, headland inset `h ≥ 0`
and row spacing `s > 0`, every point of the standing-row geometry returned by
`generate_standing_rows` lies inside the (headland-inset) working area of
`F`, and hence inside `F` (exactly, so in particular within any tolerance).
`sel` is the MultiPolygon largest-part selection, constrained to return a
part of its input. -/
theorem generate_standing_rows_inside_field (sel : Set Pt → Set Pt)
    (centroid : Set Pt → Pt) (F : Set Pt) (θ h s : ℝ)
    (hsel : ∀ S, sel S ⊆ S) (hh : 0 ≤ h) (hs : 0 < s) :
    ∀ p ∈ generate_standing_rows sel centroid F θ h s,
      p ∈ working_area sel F h ∧ p ∈ F := by
  intro p hp
  have hW : p ∈ working_area sel F h := hp.2
  exact ⟨hW, working_area_subset sel F h hsel hW⟩

/-- Witness for C1: the trivial field `univ` with inset `0`, direction `0`,
spacing `1`; the point `(0, 0)` lies on candidate row `0` and in the result. -/
theorem generate_standing_rows_inside_field_witness :
    ((0 : ℝ), (0 : ℝ)) ∈
      generate_standing_rows id (fun _ => ((0 : ℝ), (0 : ℝ)))
        (Set.univ : Set Pt) 0 0 1 ∧
    (((0 : ℝ), (0 : ℝ)) ∈ working_area id (Set.univ : Set Pt) 0 ∧
      ((0 : ℝ), (0 : ℝ)) ∈ (Set.univ : Set Pt)) := by
  have hmem : ((0 : ℝ), (0 : ℝ)) ∈
      generate_standing_rows id (fun _ => ((0 : ℝ), (0 : ℝ)))
        (Set.univ : Set Pt) 0 0 1 := by
    have hW : working_area id (Set.univ : Set Pt) 0 = Set.univ := by
      rw [working_area, if_neg]
      rintro ⟨h0, -⟩
      exact lt_irrefl 0 h0
    rw [generate_standing_rows.eq_def]
    simp only [hW]
    have hrot : rotateSet 0 ((0 : ℝ), (0 : ℝ)) Set.univ = Set.univ := by
      apply Set.eq_univ_of_forall
      intro q
      exact ⟨q, Set.mem_univ q, by simp [rotatePt]⟩
    rw [hrot]
    refine Set.mem_inter ?_ (by simp)
    rw [if_neg (by simp)]
    refine ⟨0, ?_, ?_, Set.mem_univ _⟩
    · have : pyTrunc ((sSup (Prod.fst '' (Set.univ : Set Pt)) -
          sInf (Prod.fst '' (Set.univ : Set Pt))) / 1) + 2 = 2 := by
        have himg : (Prod.fst '' (Set.univ : Set Pt)) = (Set.univ : Set ℝ) := by
          ext x; simp [Set.mem_image, Prod.exists]
        rw [himg]
        have h1 : sSup (Set.univ : Set ℝ) = 0 :=
          Real.sSup_of_not_bddAbove (by simpa using Real.univ_not_bddAbove)
        have h2 : sInf (Set.univ : Set ℝ) = 0 := by
          have : ¬ BddBelow (Set.univ : Set ℝ) := by
            intro hb
            obtain ⟨m, hm⟩ := hb
            have := hm (Set.mem_univ (m - 1))
            linarith
          exact Real.sInf_of_not_bddBelow this
        rw [h1, h2]
        norm_num [pyTrunc]
      simp only [num_standing_rows, this]
      norm_num
    · refine ⟨1 / 2, by norm_num, by norm_num, ?_⟩
      have himgf : (Prod.fst '' (Set.univ : Set Pt)) = (Set.univ : Set ℝ) := by
        ext x; simp [Set.mem_image, Prod.exists]
      have himgs : (Prod.snd '' (Set.univ : Set Pt)) = (Set.univ : Set ℝ) := by
        ext x; simp [Set.mem_image, Prod.exists]
      have h1 : sSup (Set.univ : Set ℝ) = 0 :=
        Real.sSup_of_not_bddAbove (by simpa using Real.univ_not_bddAbove)
      have h2 : sInf (Set.univ : Set ℝ) = 0 := by
        have : ¬ BddBelow (Set.univ : Set ℝ) := by
          intro hb
          obtain ⟨m, hm⟩ := hb
          have := hm (Set.mem_univ (m - 1))
          linarith
        exact Real.sInf_of_not_bddBelow this
      rw [himgf, himgs, h1, h2]
      norm_num
  refine ⟨hmem, generate_standing_rows_inside_field id _ _ 0 0 1
    (fun S => le_refl S) le_rfl one_pos _ hmem⟩

/-! ### C8: the candidate-row index range -/

/-- **C8.** In the rotated frame with bounds `(minx, miny, maxx, maxy)` and
spacing `s > 0`, candidate row `i` is generated (i.e. `i < num_rows` where
`num_rows = int((maxx - minx) / s) + 2`) exactly for the natural numbers `i`
with `minx + i * s ≤ maxx + s`; each candidate spans from
`(minx + i * s, miny - s)` to `(minx + i * s, maxy + s)`, and the standing
union consists exactly of those candidates intersected with the rotated
working area. -/
theorem standing_rows_candidate_range (rotated : Set Pt)
    (minx miny maxx maxy s : ℝ) (hs : 0 < s) (hb : minx ≤ maxx) :
    (∀ i : ℕ, i < num_standing_rows minx maxx s ↔ minx + i * s ≤ maxx + s) ∧
    (∀ i : ℕ, rowLine minx miny maxy s i =
      lineSeg (minx + i * s, miny - s) (minx + i * s, maxy + s)) ∧
    (∀ p : Pt, p ∈ standingUnion rotated minx miny maxx maxy s ↔
      ∃ i : ℕ, minx + i * s ≤ maxx + s ∧
        p ∈ rowLine minx miny maxy s i ∩ rotated) := by
  have hd : 0 ≤ (maxx - minx) / s := div_nonneg (by linarith) (le_of_lt hs)
  have htr : pyTrunc ((maxx - minx) / s) = ⌊(maxx - minx) / s⌋ := by
    rw [pyTrunc, if_neg (not_lt.mpr hd)]
  have hfl : 0 ≤ ⌊(maxx - minx) / s⌋ := Int.floor_nonneg.mpr hd
  have key : ∀ i : ℕ, i < num_standing_rows minx maxx s ↔
      minx + i * s ≤ maxx + s := by
    intro i
    rw [num_standing_rows, htr]
    rw [show ∀ m : ℤ, (i < m.toNat ↔ (i : ℤ) < m) from fun m => Int.lt_toNat]
    constructor
    · intro h'
      have h2 : (i : ℤ) - 1 ≤ ⌊(maxx - minx) / s⌋ := by omega
      have h3 : ((i : ℝ) - 1) ≤ (maxx - minx) / s := by
        have := Int.le_floor.mp h2
        push_cast at this ⊢
        linarith
      have h4 : ((i : ℝ) - 1) * s ≤ maxx - minx := by
        rw [← le_div_iff₀ hs]
        exact h3
      nlinarith
    · intro h
      have h4 : ((i : ℝ) - 1) * s ≤ maxx - minx := by nlinarith
      have h3 : ((i : ℝ) - 1) ≤ (maxx - minx) / s := (le_div_iff₀ hs).mpr h4
      have h2 : (i : ℤ) - 1 ≤ ⌊(maxx - minx) / s⌋ := by
        rw [Int.le_floor]
        push_cast
        linarith
      omega
  refine ⟨key, fun i => rfl, fun p => ?_⟩
  constructor
  · rintro ⟨i, hi, hmem⟩
    exact ⟨i, (key i).mp hi, hmem⟩
  · rintro ⟨i, hi, hmem⟩
    exact ⟨i, (key i).mpr hi, hmem⟩

/-- Witness for C8: bounds `[0, 10]`, spacing `3`; row `2` is generated and
`0 + 2·3 ≤ 10 + 3`. -/
theorem standing_rows_candidate_range_witness :
    ((0 : ℝ) < 3 ∧ (0 : ℝ) ≤ 10) ∧
    (2 < num_standing_rows 0 10 3 ↔ (0 : ℝ) + 2 * 3 ≤ 10 + 3) :=
  ⟨⟨by norm_num, by norm_num⟩,
    (standing_rows_candidate_range ∅ 0 0 10 0 3 (by norm_num) (by norm_num)).1 2⟩

/-! ## Pathfinding (analysis/pathfinding.py)

`_rasterize_walls` consults two shapely predicates: `field_boundary.contains`
and `wall_buffer.contains` (the walls buffered by `0.4 * resolution`), plus
the field bounds and whether a walls geometry is present.  These are the
fields of `RasterInput`; every theorem quantifies over them.  The A* `while`
loop becomes a fuel-indexed recursion; all theorems hold for every fuel. -/

/-- A grid cell, as `(row, col)`. -/
abbrev Cell : Type := ℕ × ℕ

/-- The geometric inputs of `_rasterize_walls`. -/
structure RasterInput where
  minx : ℝ
  miny : ℝ
  maxx : ℝ
  maxy : ℝ
  fieldContains : Pt → Bool
  wallsPresent : Bool
  wallBufContains : Pt → Bool

noncomputable section

/-- `grid_cols = max(1, int((maxx - minx) / resolution))`. -/
def gridCols (ri : RasterInput) (res : ℝ) : ℕ :=
  max 1 (pyTrunc ((ri.maxx - ri.minx) / res)).toNat

/-- `grid_rows = max(1, int((maxy - miny) / resolution))`. -/
def gridRows (ri : RasterInput) (res : ℝ) : ℕ :=
  max 1 (pyTrunc ((ri.maxy - ri.miny) / res)).toNat

/-- The world coordinates of the center of cell `(r, c)` — the source's
`grid_to_world` closure, and the sampling point of `_rasterize_walls`. -/
def cellCenter (ri : RasterInput) (res : ℝ) (rc : Cell) : Pt :=
  (ri.minx + ((rc.2 : ℝ) + 0.5) * res, ri.miny + ((rc.1 : ℝ) + 0.5) * res)

/-- The rasterized grid: `True` means blocked.  A cell is blocked iff its
center is not inside the field, or a walls geometry is present and the
buffered walls contain the center. -/
def gridBlocked (ri : RasterInput) (res : ℝ) (rc : Cell) : Bool :=
  !(ri.fieldContains (cellCenter ri res rc)) ||
    (ri.wallsPresent && ri.wallBufContains (cellCenter ri res rc))

/-- The source's `world_to_grid` closure: truncate to a cell index and clamp
into the grid. -/
def world_to_grid (ri : RasterInput) (res : ℝ) (p : Pt) : Cell :=
  ((max 0 (min (pyTrunc ((p.2 - ri.miny) / res)) ((gridRows ri res : ℤ) - 1))).toNat,
   (max 0 (min (pyTrunc ((p.1 - ri.minx) / res)) ((gridCols ri res : ℤ) - 1))).toNat)

/-- `range(-radius, radius + 1)` as a list of integers. -/
def offsetRange (radius : ℕ) : List ℤ :=
  (List.range (2 * radius + 1)).map (fun k : ℕ => (k : ℤ) - (radius : ℤ))

/-- One radius of the nearest-open-cell scan: the first in-bounds open cell
`(r + dr, c + dc)` for `dr, dc` ranging row-major over the whole square of
Chebyshev radius `radius`. -/
def scanRadius (rows cols : ℕ) (grid : Cell → Bool) (rc : Cell) (radius : ℕ) :
    Option Cell :=
  (offsetRange radius).findSome? fun dr =>
    (offsetRange radius).findSome? fun dc =>
      let nr := (rc.1 : ℤ) + dr
      let nc := (rc.2 : ℤ) + dc
      if 0 ≤ nr ∧ nr < (rows : ℤ) ∧ 0 ≤ nc ∧ nc < (cols : ℤ) ∧
          grid (nr.toNat, nc.toNat) = false then
        some (nr.toNat, nc.toNat)
      else none

/-- The nearest-open-cell recovery: scan radii `1, …, max(rows, cols) - 1`
in increasing order and return the first open cell found. -/
def snapToOpen (rows cols : ℕ) (grid : Cell → Bool) (rc : Cell) : Option Cell :=
  ((List.range (max rows cols - 1)).map (· + 1)).findSome?
    (scanRadius rows cols grid rc)

/-- The A* heuristic: Euclidean distance in cells to the goal. -/
def heuristic (goal rc : Cell) : ℝ :=
  Real.sqrt (((rc.1 : ℝ) - (goal.1 : ℝ)) ^ 2 + ((rc.2 : ℝ) - (goal.2 : ℝ)) ^ 2)

/-- A priority-queue entry `(f, g, cell)`. -/
abbrev AEntry : Type := ℝ × ℝ × Cell

/-- The heap order on entries: lexicographic on `(f, g, (row, col))`, as
Python compares the pushed tuples. -/
def entryLE (a b : AEntry) : Prop :=
  a.1 < b.1 ∨ (a.1 = b.1 ∧ (a.2.1 < b.2.1 ∨ (a.2.1 = b.2.1 ∧
    (a.2.2.1 < b.2.2.1 ∨ (a.2.2.1 = b.2.2.1 ∧ a.2.2.2 ≤ b.2.2.2)))))

/-- The least entry among `e :: l` in the `entryLE` order. -/
def minEntry (e : AEntry) (l : List AEntry) : AEntry :=
  l.foldl (fun a b => if entryLE a b then a else b) e

/-- `heapq.heappop`: remove and return the least entry. -/
def popMin (l : List AEntry) : Option (AEntry × List AEntry) :=
  match l with
  | [] => none
  | e :: rest => some (minEntry e rest, (e :: rest).erase (minEntry e rest))

/-- The mutable state of the A* loop. -/
structure AState where
  queue : List AEntry
  cameFrom : Cell → Option Cell
  gScore : Cell → Option ℝ

/-- The eight neighbour offsets, in source order. -/
def neighborsOffsets : List (ℤ × ℤ) :=
  [(-1, -1), (-1, 0), (-1, 1), (0, -1), (0, 1), (1, -1), (1, 0), (1, 1)]

/-- `tentative_g < g_score.get(neighbor, float('inf'))`. -/
def ltOptInf (t : ℝ) (o : Option ℝ) : Prop :=
  match o with
  | none => True
  | some g => t < g

/-- `move_cost = sqrt(2) if (dr != 0 and dc != 0) else 1.0`. -/
def moveCost (d : ℤ × ℤ) : ℝ :=
  if d.1 ≠ 0 ∧ d.2 ≠ 0 then Real.sqrt 2 else 1

/-- The neighbour cell reached from `cur` by offset `d`. -/
def nbCell (cur : Cell) (d : ℤ × ℤ) : Cell :=
  (((cur.1 : ℤ) + d.1).toNat, ((cur.2 : ℤ) + d.2).toNat)

/-- Relax one neighbour of `cur` (one iteration of the inner `for` loop). -/
def relaxOne (rows cols : ℕ) (grid : Cell → Bool) (goal cur : Cell) (curG : ℝ)
    (st : AState) (d : ℤ × ℤ) : AState :=
  if 0 ≤ (cur.1 : ℤ) + d.1 ∧ (cur.1 : ℤ) + d.1 < (rows : ℤ) ∧
      0 ≤ (cur.2 : ℤ) + d.2 ∧ (cur.2 : ℤ) + d.2 < (cols : ℤ) ∧
      grid (nbCell cur d) = false then
    if ltOptInf (curG + moveCost d) (st.gScore (nbCell cur d)) then
      { queue := (curG + moveCost d + heuristic goal (nbCell cur d),
          curG + moveCost d, nbCell cur d) :: st.queue,
        cameFrom := fun n => if n = nbCell cur d then some cur else st.cameFrom n,
        gScore := fun n => if n = nbCell cur d then some (curG + moveCost d)
          else st.gScore n }
    else st
  else st

/-- Rebuild the waypoint list by walking `came_from` from the popped goal
(the source's `while node in came_from` loop, before the final `reverse`).
The fuel `rows * cols + 1` always suffices: the chain of parents is strictly
decreasing in `g`, hence visits distinct in-bounds cells. -/
def reconstruct (toWorld : Cell → Pt) (cf : Cell → Option Cell) :
    ℕ → Cell → List Pt
  | 0, node => [toWorld node]
  | fuel + 1, node =>
      match cf node with
      | none => [toWorld node]
      | some m => toWorld node :: reconstruct toWorld cf fuel m

/-- The A* `while open_set` loop, fuel-indexed. -/
def astarLoop (rows cols : ℕ) (grid : Cell → Bool) (toWorld : Cell → Pt)
    (goal : Cell) : ℕ → AState → Option (List Pt)
  | 0, _ => none
  | fuel + 1, st =>
      match popMin st.queue with
      | none => none
      | some (e, rest) =>
          if e.2.2 = goal then
            some ((reconstruct toWorld st.cameFrom (rows * cols + 1) e.2.2).reverse)
          else if ∃ g, st.gScore e.2.2 = some g ∧ g < e.2.1 then
            astarLoop rows cols grid toWorld goal fuel { st with queue := rest }
          else
            astarLoop rows cols grid toWorld goal fuel
              (neighborsOffsets.foldl
                (relaxOne rows cols grid goal e.2.2 e.2.1)
                { st with queue := rest })

/-- Model of `find_path`: rasterize, snap blocked endpoints, run A*. -/
def find_path (ri : RasterInput) (start goal : Pt) (res : ℝ) (fuel : ℕ) :
    Option (List Pt) :=
  let rows := gridRows ri res
  let cols := gridCols ri res
  let grid := fun rc => gridBlocked ri res rc
  let start0 := world_to_grid ri res start
  let goal0 := world_to_grid ri res goal
  match (if grid start0 then snapToOpen rows cols grid start0 else some start0) with
  | none => none
  | some startRC =>
      match (if grid goal0 then snapToOpen rows cols grid goal0 else some goal0) with
      | none => none
      | some goalRC =>
          astarLoop rows cols grid (cellCenter ri res) goalRC fuel
            { queue := [(heuristic goalRC startRC, 0, startRC)],
              cameFrom := fun _ => none,
              gScore := fun n => if n = startRC then some 0 else none }

/-- Model of `is_solvable`. -/
def is_solvable (ri : RasterInput) (start goal : Pt) (res : ℝ) (fuel : ℕ) :
    Bool :=
  (find_path ri start goal res fuel).isSome

/-- Model of `calculate_path_length`: sum of Euclidean distances between
consecutive waypoints (0 for fewer than two points). -/
def calculate_path_length : List Pt → ℝ
  | a :: b :: rest => ptDist a b + calculate_path_length (b :: rest)
  | _ => 0

end

/-! ### C3: nearest-open-cell recovery -/

/-- Chebyshev distance between two cells. -/
def chebDist (a b : Cell) : ℕ :=
  max ((a.1 : ℤ) - (b.1 : ℤ)).natAbs ((a.2 : ℤ) - (b.2 : ℤ)).natAbs

theorem offsetRange_mem {radius : ℕ} {x : ℤ} :
    x ∈ offsetRange radius ↔ -(radius : ℤ) ≤ x ∧ x ≤ radius := by
  constructor
  · intro hmem
    rw [offsetRange] at hmem
    obtain ⟨k, hk, hkx⟩ := List.mem_map.mp hmem
    rw [List.mem_range] at hk
    omega
  · intro h
    rw [offsetRange]
    refine List.mem_map.mpr ⟨(x + radius).toNat, ?_, ?_⟩
    · rw [List.mem_range]; omega
    · omega

theorem scanRadius_some_sound {rows cols : ℕ} {grid : Cell → Bool} {rc : Cell}
    {radius : ℕ} {b : Cell}
    (h : scanRadius rows cols grid rc radius = some b) :
    b.1 < rows ∧ b.2 < cols ∧ grid b = false ∧ chebDist rc b ≤ radius := by
  rw [scanRadius] at h
  obtain ⟨_, dr, _, hsplit, hdr, -⟩ := List.findSome?_eq_some_iff.mp h
  have hdrmem : dr ∈ offsetRange radius := by
    rw [hsplit]; simp
  obtain ⟨_, dc, _, hsplit2, hdc, -⟩ := List.findSome?_eq_some_iff.mp hdr
  have hdcmem : dc ∈ offsetRange radius := by
    rw [hsplit2]; simp
  obtain ⟨hdr1, hdr2⟩ := offsetRange_mem.mp hdrmem
  obtain ⟨hdc1, hdc2⟩ := offsetRange_mem.mp hdcmem
  by_cases hc : 0 ≤ (rc.1 : ℤ) + dr ∧ (rc.1 : ℤ) + dr < (rows : ℤ) ∧
      0 ≤ (rc.2 : ℤ) + dc ∧ (rc.2 : ℤ) + dc < (cols : ℤ) ∧
      grid (((rc.1 : ℤ) + dr).toNat, ((rc.2 : ℤ) + dc).toNat) = false
  · rw [if_pos hc] at hdc
    obtain ⟨h1, h2, h3, h4, h5⟩ := hc
    cases hdc
    refine ⟨by omega, by omega, h5, ?_⟩
    simp only [chebDist]
    omega
  · rw [if_neg hc] at hdc
    exact Option.noConfusion hdc

theorem scanRadius_complete {rows cols : ℕ} {grid : Cell → Bool} {rc : Cell}
    {radius : ℕ} {b : Cell} (hb1 : b.1 < rows) (hb2 : b.2 < cols)
    (hopen : grid b = false) (hcheb : chebDist rc b ≤ radius) :
    scanRadius rows cols grid rc radius ≠ none := by
  intro hnone
  rw [scanRadius, List.findSome?_eq_none_iff] at hnone
  have hcheb' := hcheb
  simp only [chebDist, max_le_iff] at hcheb'
  have hdr : ((b.1 : ℤ) - rc.1) ∈ offsetRange radius := by
    rw [offsetRange_mem]; omega
  have hinner := hnone _ hdr
  rw [List.findSome?_eq_none_iff] at hinner
  have hdc : ((b.2 : ℤ) - rc.2) ∈ offsetRange radius := by
    rw [offsetRange_mem]; omega
  have := hinner _ hdc
  rw [if_pos] at this
  · exact Option.noConfusion this
  · refine ⟨by omega, by omega, by omega, by omega, ?_⟩
    have e1 : ((rc.1 : ℤ) + ((b.1 : ℤ) - rc.1)).toNat = b.1 := by omega
    have e2 : ((rc.2 : ℤ) + ((b.2 : ℤ) - rc.2)).toNat = b.2 := by omega
    rw [e1, e2]
    exact hopen

theorem findSome?_ascending {α : Type} {f : ℕ → Option α} {N : ℕ} {b : α}
    (h : (((List.range N).map (· + 1)).findSome? f) = some b) :
    ∃ ρ, 1 ≤ ρ ∧ ρ ≤ N ∧ f ρ = some b ∧
      ∀ ρ', 1 ≤ ρ' → ρ' < ρ → f ρ' = none := by
  induction N with
  | zero => simp at h
  | succ n ih =>
      rw [List.range_succ, List.map_append, List.findSome?_append] at h
      cases hl : ((List.range n).map (· + 1)).findSome? f with
      | some c =>
          rw [hl, Option.or_some] at h
          obtain ⟨ρ, h1, h2, h3, h4⟩ := ih (hl.trans h)
          exact ⟨ρ, h1, by omega, h3, h4⟩
      | none =>
          rw [hl] at h
          simp only [Option.none_or, List.map_cons, List.map_nil,
            List.findSome?_cons, List.findSome?_nil] at h
          rw [List.findSome?_eq_none_iff] at hl
          cases hfn : f (n + 1) with
          | none => rw [hfn] at h; exact Option.noConfusion h
          | some c =>
              rw [hfn] at h
              cases h
              refine ⟨n + 1, by omega, le_refl _, hfn, ?_⟩
              intro ρ' h1 h2
              refine hl ρ' ?_
              rw [List.mem_map]
              exact ⟨ρ' - 1, List.mem_range.mpr (by omega), by omega⟩

/-- `chebDist rc b = 0` iff the cells coincide. -/
theorem chebDist_eq_zero {a b : Cell} : chebDist a b = 0 ↔ a = b := by
  simp only [chebDist, Nat.max_eq_zero_iff, Int.natAbs_eq_zero, sub_eq_zero,
    Nat.cast_inj]
  constructor
  · rintro ⟨h1, h2⟩
    exact Prod.ext_iff.mpr ⟨h1, h2⟩
  · rintro rfl
    exact ⟨rfl, rfl⟩

theorem snapToOpen_sound {rows cols : ℕ} {grid : Cell → Bool} {rc b : Cell}
    (h : snapToOpen rows cols grid rc = some b) :
    b.1 < rows ∧ b.2 < cols ∧ grid b = false := by
  rw [snapToOpen] at h
  obtain ⟨ρ, -, -, hρ, -⟩ := findSome?_ascending h
  exact ⟨(scanRadius_some_sound hρ).1, (scanRadius_some_sound hρ).2.1,
    (scanRadius_some_sound hρ).2.2.1⟩

theorem snapToOpen_minimal {rows cols : ℕ} {grid : Cell → Bool} {rc b : Cell}
    (hblocked : grid rc = true) (h : snapToOpen rows cols grid rc = some b) :
    ∀ b' : Cell, b'.1 < rows → b'.2 < cols → grid b' = false →
      chebDist rc b ≤ chebDist rc b' := by
  intro b' hb1 hb2 hopen
  rw [snapToOpen] at h
  obtain ⟨ρ, hρ1, hρ2, hρ, hprev⟩ := findSome?_ascending h
  obtain ⟨-, -, -, hchb⟩ := scanRadius_some_sound hρ
  by_contra hlt
  push_neg at hlt
  have hne : b' ≠ rc := by
    rintro rfl
    rw [hblocked] at hopen
    exact Bool.noConfusion hopen
  have hge1 : 1 ≤ chebDist rc b' := by
    by_contra h0
    push_neg at h0
    have : chebDist rc b' = 0 := by omega
    exact hne (chebDist_eq_zero.mp this).symm
  have hlt' : chebDist rc b' < ρ := by omega
  exact scanRadius_complete hb1 hb2 hopen (le_refl _)
    (hprev _ hge1 hlt')

/-- `world_to_grid` always lands inside the grid. -/
theorem world_to_grid_inBounds (ri : RasterInput) (res : ℝ) (p : Pt) :
    (world_to_grid ri res p).1 < gridRows ri res ∧
    (world_to_grid ri res p).2 < gridCols ri res := by
  have hr : 1 ≤ gridRows ri res := le_max_left _ _
  have hc : 1 ≤ gridCols ri res := le_max_left _ _
  rw [world_to_grid]
  constructor <;> simp only <;> omega

/-- **C3.** When an endpoint maps to a blocked cell, `find_path` scans
outward in increasing Chebyshev radius and snaps to the first open cell
found — the snapped cell is open, in bounds, and of minimal Chebyshev
distance among all open cells; and if no open cell exists within Chebyshev
radius `rows + cols` of the blocked endpoint cell (the scan runs only to
radius `max(rows, cols) - 1 < rows + cols`, which already covers the whole
grid), then `find_path` fails and returns `None`. -/
theorem find_path_nearest_open_recovery (ri : RasterInput) (res : ℝ)
    (start goal : Pt) (fuel : ℕ) :
    (∀ rc b : Cell, gridBlocked ri res rc = true →
      snapToOpen (gridRows ri res) (gridCols ri res)
          (fun c => gridBlocked ri res c) rc = some b →
      (b.1 < gridRows ri res ∧ b.2 < gridCols ri res ∧
        gridBlocked ri res b = false) ∧
      (∀ b' : Cell, b'.1 < gridRows ri res → b'.2 < gridCols ri res →
        gridBlocked ri res b' = false → chebDist rc b ≤ chebDist rc b')) ∧
    ((gridBlocked ri res (world_to_grid ri res start) = true ∨
        gridBlocked ri res (world_to_grid ri res goal) = true) →
      (∀ b' : Cell, b'.1 < gridRows ri res → b'.2 < gridCols ri res →
        gridBlocked ri res b' = false →
        gridRows ri res + gridCols ri res <
          chebDist (world_to_grid ri res start) b') →
      find_path ri start goal res fuel = none) := by
  constructor
  · intro rc b hblocked hsnap
    exact ⟨snapToOpen_sound hsnap, snapToOpen_minimal hblocked hsnap⟩
  · intro hblk hnone
    have hnoopen : ∀ b' : Cell, b'.1 < gridRows ri res → b'.2 < gridCols ri res →
        gridBlocked ri res b' ≠ false := by
      intro b' h1 h2 hopen
      have hs := world_to_grid_inBounds ri res start
      have hd := hnone b' h1 h2 hopen
      have : chebDist (world_to_grid ri res start) b' ≤
          gridRows ri res + gridCols ri res := by
        simp only [chebDist]
        omega
      omega
    have hsblk : gridBlocked ri res (world_to_grid ri res start) = true := by
      have hs := world_to_grid_inBounds ri res start
      cases hb : gridBlocked ri res (world_to_grid ri res start) with
      | false => exact absurd hb (hnoopen _ hs.1 hs.2)
      | true => rfl
    rw [find_path.eq_def]
    simp only [hsblk, if_true]
    cases hsnap : snapToOpen (gridRows ri res) (gridCols ri res)
        (fun c => gridBlocked ri res c) (world_to_grid ri res start) with
    | none => rfl
    | some b =>
        obtain ⟨h1, h2, h3⟩ := snapToOpen_sound hsnap
        exact absurd h3 (hnoopen b h1 h2)

/-- Witness for C3: a raster whose field-containment test is constantly
false — every cell is blocked, so the snap hypothesis holds vacuously and
`find_path` returns `None`. -/
theorem find_path_nearest_open_recovery_witness :
    gridBlocked ⟨0, 0, 10, 10, fun _ => false, false, fun _ => false⟩ 1
      (world_to_grid ⟨0, 0, 10, 10, fun _ => false, false, fun _ => false⟩ 1
        ((0 : ℝ), (0 : ℝ))) = true ∧
    find_path ⟨0, 0, 10, 10, fun _ => false, false, fun _ => false⟩
      ((0 : ℝ), (0 : ℝ)) ((9 : ℝ), (9 : ℝ)) 1 7 = none := by
  have hblk : ∀ rc : Cell,
      gridBlocked ⟨0, 0, 10, 10, fun _ => false, false, fun _ => false⟩ 1 rc
        = true := by
    intro rc
    rw [gridBlocked]
    simp
  refine ⟨hblk _, ?_⟩
  exact (find_path_nearest_open_recovery
      ⟨0, 0, 10, 10, fun _ => false, false, fun _ => false⟩ 1
      ((0 : ℝ), (0 : ℝ)) ((9 : ℝ), (9 : ℝ)) 7).2
    (Or.inl (hblk _))
    (fun b' _ _ hopen => absurd (hblk b') (by rw [hopen]; exact Bool.noConfusion))

/-! ### C2: properties of returned paths -/

theorem dist2_nonneg (p q : Pt) : 0 ≤ dist2 p q := by
  simp only [dist2]
  positivity

theorem ptDist_self (p : Pt) : ptDist p p = 0 := by
  simp [ptDist, dist2]

/-- Euclidean triangle inequality for `ptDist`. -/
theorem ptDist_triangle (a b c : Pt) : ptDist a c ≤ ptDist a b + ptDist b c := by
  have hA := dist2_nonneg a b
  have hB := dist2_nonneg b c
  have key : (a.1 - b.1) * (b.1 - c.1) + (a.2 - b.2) * (b.2 - c.2) ≤
      Real.sqrt (dist2 a b) * Real.sqrt (dist2 b c) := by
    rw [← Real.sqrt_mul hA]
    apply Real.le_sqrt_of_sq_le
    simp only [dist2]
    nlinarith [sq_nonneg ((a.1 - b.1) * (b.2 - c.2) - (a.2 - b.2) * (b.1 - c.1))]
  rw [ptDist, ptDist, ptDist]
  refine Real.sqrt_le_iff.mpr ⟨by positivity, ?_⟩
  have e1 : Real.sqrt (dist2 a b) ^ 2 = dist2 a b := Real.sq_sqrt hA
  have e2 : Real.sqrt (dist2 b c) ^ 2 = dist2 b c := Real.sq_sqrt hB
  have expand : dist2 a c = dist2 a b + dist2 b c +
      2 * ((a.1 - b.1) * (b.1 - c.1) + (a.2 - b.2) * (b.2 - c.2)) := by
    simp only [dist2]
    ring
  calc dist2 a c
      = dist2 a b + dist2 b c +
        2 * ((a.1 - b.1) * (b.1 - c.1) + (a.2 - b.2) * (b.2 - c.2)) := expand
    _ ≤ dist2 a b + dist2 b c +
        2 * (Real.sqrt (dist2 a b) * Real.sqrt (dist2 b c)) := by linarith
    _ = (Real.sqrt (dist2 a b) + Real.sqrt (dist2 b c)) ^ 2 := by
        rw [add_sq, e1, e2]
        ring

/-- The summed polyline length dominates the straight-line distance between
the endpoints (triangle inequality, folded along the list). -/
theorem calculate_path_length_ge (a : Pt) (rest : List Pt) :
    ptDist a ((a :: rest).getLast (by simp)) ≤
      calculate_path_length (a :: rest) := by
  induction rest generalizing a with
  | nil =>
      simp only [List.getLast_singleton, calculate_path_length, ptDist_self]
      exact le_refl 0
  | cons b rest ih =>
      have hlast : ((a :: b :: rest).getLast (by simp)) =
          ((b :: rest).getLast (by simp)) := by
        rw [List.getLast_cons]
      rw [hlast, calculate_path_length]
      calc ptDist a ((b :: rest).getLast (by simp))
          ≤ ptDist a b + ptDist b ((b :: rest).getLast (by simp)) :=
            ptDist_triangle _ _ _
        _ ≤ ptDist a b + calculate_path_length (b :: rest) := by
            linarith [ih b]

/-- The A* loop invariant.  `g`-scores are non-negative, the start holds
`g = 0` and never acquires a parent, every parent link strictly decreases the
`g`-score, every scored cell other than the start has a parent, every queue
entry's cell is scored with a value at most the entry's `g`, and scored cells
are in bounds. -/
structure AInv (start : Cell) (rows cols : ℕ) (st : AState) : Prop where
  gStart : st.gScore start = some 0
  gNonneg : ∀ n g, st.gScore n = some g → 0 ≤ g
  cfStart : st.cameFrom start = none
  cfOrder : ∀ n m, st.cameFrom n = some m → ∃ gn gm, st.gScore n = some gn ∧
    st.gScore m = some gm ∧ gm < gn
  gOrigin : ∀ n, (st.gScore n).isSome → n = start ∨ (st.cameFrom n).isSome
  qEntries : ∀ e ∈ st.queue, ∃ g', st.gScore e.2.2 = some g' ∧ g' ≤ e.2.1
  gInb : ∀ n, (st.gScore n).isSome → n.1 < rows ∧ n.2 < cols

theorem AInv_init (goal start : Cell) (rows cols : ℕ)
    (hs1 : start.1 < rows) (hs2 : start.2 < cols) :
    AInv start rows cols
      { queue := [(heuristic goal start, 0, start)],
        cameFrom := fun _ => none,
        gScore := fun n => if n = start then some 0 else none } := by
  constructor
  · simp
  · intro n g h
    by_cases hn : n = start
    · subst hn
      dsimp only at h
      rw [if_pos rfl, Option.some.injEq] at h
      rw [← h]
    · simp [hn] at h
  · simp
  · intro n m h
    simp at h
  · intro n h
    by_cases hn : n = start
    · exact Or.inl hn
    · simp [hn] at h
  · intro e he
    simp only [List.mem_singleton] at he
    subst he
    exact ⟨0, by simp, le_refl 0⟩
  · intro n h
    by_cases hn : n = start
    · subst hn; exact ⟨hs1, hs2⟩
    · simp [hn] at h

theorem minEntry_mem (e : AEntry) (l : List AEntry) : minEntry e l ∈ e :: l := by
  induction l generalizing e with
  | nil => simp [minEntry]
  | cons b t ih =>
      rw [minEntry, List.foldl_cons]
      have hmem := ih (if entryLE e b then e else b)
      rw [minEntry] at hmem
      rcases List.mem_cons.mp hmem with h | h
      · rw [h]
        split
        · exact List.mem_cons_self _ _
        · exact List.mem_cons_of_mem _ (List.mem_cons_self _ _)
      · exact List.mem_cons_of_mem _ (List.mem_cons_of_mem _ h)

theorem popMin_spec {l : List AEntry} {e : AEntry} {rest : List AEntry}
    (h : popMin l = some (e, rest)) : e ∈ l ∧ ∀ e' ∈ rest, e' ∈ l := by
  cases l with
  | nil => simp [popMin] at h
  | cons x xs =>
      rw [popMin] at h
      rw [Option.some.injEq, Prod.mk.injEq] at h
      obtain ⟨h1, h2⟩ := h
      subst h1
      subst h2
      exact ⟨minEntry_mem x xs, fun e' he' => List.erase_subset _ _ he'⟩

theorem moveCost_ge_one (d : ℤ × ℤ) : (1 : ℝ) ≤ moveCost d := by
  rw [moveCost]
  split
  · rw [show (1 : ℝ) = Real.sqrt 1 by simp]
    exact Real.sqrt_le_sqrt (by norm_num)
  · exact le_refl 1

theorem neighborsOffsets_ne_zero {d : ℤ × ℤ} (hd : d ∈ neighborsOffsets) :
    ¬(d.1 = 0 ∧ d.2 = 0) := by
  simp only [neighborsOffsets, List.mem_cons, List.not_mem_nil, or_false] at hd
  rcases hd with rfl | rfl | rfl | rfl | rfl | rfl | rfl | rfl <;> simp

/-- Relaxing one in-range neighbour preserves the invariant, and leaves the
current cell's score untouched. -/
theorem relaxOne_inv {start : Cell} {rows cols : ℕ} {grid : Cell → Bool}
    {goal cur : Cell} {curG : ℝ} {st : AState} {d : ℤ × ℤ}
    (hinv : AInv start rows cols st) (hcur : st.gScore cur = some curG)
    (hd : d ∈ neighborsOffsets) :
    AInv start rows cols (relaxOne rows cols grid goal cur curG st d) ∧
    (relaxOne rows cols grid goal cur curG st d).gScore cur = some curG := by
  have hd0 := neighborsOffsets_ne_zero hd
  have hcost := moveCost_ge_one d
  have hcurG : 0 ≤ curG := hinv.gNonneg cur curG hcur
  rw [relaxOne]
  split
  case isFalse => exact ⟨hinv, hcur⟩
  case isTrue hb =>
    obtain ⟨hb1, hb2, hb3, hb4, hb5⟩ := hb
    split
    case isFalse => exact ⟨hinv, hcur⟩
    case isTrue hup =>
      have hnbcur : nbCell cur d ≠ cur := by
        rw [nbCell]
        intro hcontra
        rw [Prod.ext_iff] at hcontra
        simp only at hcontra
        omega
      have hnbstart : nbCell cur d ≠ start := by
        intro hcontra
        rw [hcontra, hinv.gStart] at hup
        rw [ltOptInf] at hup
        linarith
      have ht : 0 < curG + moveCost d := by linarith
      have hcurne : ¬(cur = nbCell cur d) := fun hc => hnbcur hc.symm
      refine ⟨?_, ?_⟩
      · constructor
        · dsimp only
          rw [if_neg (Ne.symm hnbstart)]
          exact hinv.gStart
        · intro n g h
          dsimp only at h
          by_cases hn : n = nbCell cur d
          · rw [if_pos hn, Option.some.injEq] at h
            linarith [h ▸ le_of_lt ht]
          · rw [if_neg hn] at h
            exact hinv.gNonneg n g h
        · dsimp only
          rw [if_neg (Ne.symm hnbstart)]
          exact hinv.cfStart
        · intro n m h
          dsimp only at h
          by_cases hn : n = nbCell cur d
          · rw [if_pos hn, Option.some.injEq] at h
            subst h
            refine ⟨curG + moveCost d, curG, ?_, ?_, by linarith⟩
            · dsimp only
              rw [if_pos hn]
            · dsimp only
              rw [if_neg hcurne]
              exact hcur
          · rw [if_neg hn] at h
            obtain ⟨gn, gm, hgn, hgm, hlt⟩ := hinv.cfOrder n m h
            by_cases hm : m = nbCell cur d
            · refine ⟨gn, curG + moveCost d, ?_, ?_, ?_⟩
              · dsimp only
                rw [if_neg hn]
                exact hgn
              · dsimp only
                rw [if_pos hm]
              · rw [← hm, hgm] at hup
                rw [ltOptInf] at hup
                linarith
            · refine ⟨gn, gm, ?_, ?_, hlt⟩
              · dsimp only
                rw [if_neg hn]
                exact hgn
              · dsimp only
                rw [if_neg hm]
                exact hgm
        · intro n h
          dsimp only at h
          by_cases hn : n = nbCell cur d
          · right
            dsimp only
            rw [if_pos hn]
            exact Option.isSome_some
          · rw [if_neg hn] at h
            rcases hinv.gOrigin n h with h' | h'
            · exact Or.inl h'
            · right
              dsimp only
              rw [if_neg hn]
              exact h'
        · intro e he
          dsimp only at he
          rcases List.mem_cons.mp he with rfl | he'
          · refine ⟨curG + moveCost d, ?_, le_refl _⟩
            dsimp only
            rw [if_pos rfl]
          · obtain ⟨g', hg', hle⟩ := hinv.qEntries e he'
            by_cases hc : e.2.2 = nbCell cur d
            · refine ⟨curG + moveCost d, ?_, ?_⟩
              · dsimp only
                rw [if_pos hc]
              · rw [← hc, hg'] at hup
                rw [ltOptInf] at hup
                linarith
            · refine ⟨g', ?_, hle⟩
              dsimp only
              rw [if_neg hc]
              exact hg'
        · intro n h
          dsimp only at h
          by_cases hn : n = nbCell cur d
          · subst hn
            rw [nbCell]
            constructor <;> simp only <;> omega
          · rw [if_neg hn] at h
            exact hinv.gInb n h
      · dsimp only
        rw [if_neg hcurne]
        exact hcur

/-- Folding the relaxation over any sublist of the neighbour offsets
preserves the invariant. -/
theorem foldl_relax_inv {start : Cell} {rows cols : ℕ} {grid : Cell → Bool}
    {goal cur : Cell} {curG : ℝ} :
    ∀ (l : List (ℤ × ℤ)) (st : AState), (∀ d ∈ l, d ∈ neighborsOffsets) →
      AInv start rows cols st → st.gScore cur = some curG →
      AInv start rows cols (l.foldl (relaxOne rows cols grid goal cur curG) st) := by
  intro l
  induction l with
  | nil => exact fun st _ hinv _ => hinv
  | cons d t ih =>
      intro st hl hinv hcur
      rw [List.foldl_cons]
      obtain ⟨hinv', hcur'⟩ :=
        @relaxOne_inv start rows cols grid goal cur curG st d hinv hcur
          (hl d (List.mem_cons_self d t))
      exact ih _ (fun d' hd' => hl d' (List.mem_cons_of_mem d hd')) hinv' hcur'

/-- The number of in-bounds cells whose score is strictly below `g`. -/
noncomputable def cardBelow (st : AState) (rows cols : ℕ) (g : ℝ) : ℕ :=
  ((Finset.range rows ×ˢ Finset.range cols).filter
    (fun c : Cell => ∃ gc, st.gScore c = some gc ∧ gc < g)).card

theorem cardBelow_le (st : AState) (rows cols : ℕ) (g : ℝ) :
    cardBelow st rows cols g ≤ rows * cols := by
  calc cardBelow st rows cols g
      ≤ (Finset.range rows ×ˢ Finset.range cols).card :=
        Finset.card_filter_le _ _
    _ = rows * cols := by rw [Finset.card_product, Finset.card_range,
        Finset.card_range]

theorem reconstruct_ne_nil (toWorld : Cell → Pt) (cf : Cell → Option Cell)
    (fuel : ℕ) (node : Cell) : reconstruct toWorld cf fuel node ≠ [] := by
  cases fuel with
  | zero => simp [reconstruct]
  | succ n =>
      rw [reconstruct]
      cases cf node <;> simp

theorem reconstruct_head (toWorld : Cell → Pt) (cf : Cell → Option Cell)
    (fuel : ℕ) (node : Cell) :
    (reconstruct toWorld cf fuel node).head? = some (toWorld node) := by
  cases fuel with
  | zero => simp [reconstruct]
  | succ n =>
      rw [reconstruct]
      cases cf node <;> simp

/-- Under the invariant, the reconstruction walk from any scored cell ends at
the start cell, provided the fuel exceeds the number of strictly-lower-scored
cells (the parent chain strictly decreases the score). -/
theorem reconstruct_getLast {start : Cell} {rows cols : ℕ} {st : AState}
    (hinv : AInv start rows cols st) (toWorld : Cell → Pt) :
    ∀ (fuel : ℕ) (node : Cell) (g : ℝ), st.gScore node = some g →
      cardBelow st rows cols g < fuel →
      (reconstruct toWorld st.cameFrom fuel node).getLast? =
        some (toWorld start) := by
  intro fuel
  induction fuel with
  | zero => intro node g _ hcard; omega
  | succ n ih =>
      intro node g hg hcard
      rw [reconstruct]
      cases hcf : st.cameFrom node with
      | none =>
          rcases hinv.gOrigin node (by rw [hg]; exact Option.isSome_some)
            with h | h
          · subst h
            simp
          · rw [hcf] at h
            exact absurd h (by simp)
      | some m =>
          obtain ⟨gn, gm, hgn, hgm, hlt⟩ := hinv.cfOrder node m hcf
          have hgng : gn = g := by
            rw [hg] at hgn
            exact (Option.some.injEq _ _ ▸ hgn).symm
          subst hgng
          have hsub : (Finset.filter
              (fun c : Cell => ∃ gc, st.gScore c = some gc ∧ gc < gm)
              (Finset.range rows ×ˢ Finset.range cols)) ⊂
              (Finset.filter
              (fun c : Cell => ∃ gc, st.gScore c = some gc ∧ gc < gn)
              (Finset.range rows ×ˢ Finset.range cols)) := by
            refine Finset.ssubset_iff_of_subset ?_ |>.mpr ?_
            · intro c hc
              rw [Finset.mem_filter] at hc ⊢
              obtain ⟨hmem, gc, h1, h2⟩ := hc
              exact ⟨hmem, gc, h1, by linarith⟩
            · refine ⟨m, ?_, ?_⟩
              · rw [Finset.mem_filter]
                refine ⟨?_, gm, hgm, hlt⟩
                have hmb := hinv.gInb m (by rw [hgm]; exact Option.isSome_some)
                rw [Finset.mem_product, Finset.mem_range, Finset.mem_range]
                exact ⟨hmb.1, hmb.2⟩
              · rw [Finset.mem_filter]
                rintro ⟨-, gc, hgc, hc⟩
                rw [hgm] at hgc
                have : gc = gm := (Option.some.injEq _ _ ▸ hgc).symm
                subst this
                exact lt_irrefl gc hc
          have hcard' : cardBelow st rows cols gm < n := by
            have h1 : cardBelow st rows cols gm < cardBelow st rows cols gn := by
              rw [cardBelow, cardBelow]
              exact Finset.card_lt_card hsub
            omega
          have := ih m gm hgm hcard'
          rw [List.getLast?_cons, this]
          cases hrec : reconstruct toWorld st.cameFrom n m with
          | nil => exact absurd hrec (reconstruct_ne_nil _ _ _ _)
          | cons x xs =>
              rw [hrec] at this
              simpa using this

/-- Replacing the queue by a subset of its entries preserves the invariant. -/
theorem AInv_queue_sub {start : Cell} {rows cols : ℕ} {st : AState}
    (hinv : AInv start rows cols st) (q' : List AEntry)
    (hq : ∀ e ∈ q', e ∈ st.queue) :
    AInv start rows cols { st with queue := q' } :=
  ⟨hinv.gStart, hinv.gNonneg, hinv.cfStart, hinv.cfOrder, hinv.gOrigin,
    fun e he => hinv.qEntries e (hq e he), hinv.gInb⟩

/-- Any path returned by the A* loop from an invariant state is non-empty,
begins at the start cell's center and ends at the goal cell's center. -/
theorem astarLoop_some {rows cols : ℕ} {grid : Cell → Bool}
    {toWorld : Cell → Pt} {goal start : Cell} :
    ∀ (fuel : ℕ) (st : AState) (path : List Pt), AInv start rows cols st →
      astarLoop rows cols grid toWorld goal fuel st = some path →
      path ≠ [] ∧ path.head? = some (toWorld start) ∧
        path.getLast? = some (toWorld goal) := by
  intro fuel
  induction fuel with
  | zero =>
      intro st path _ h
      rw [astarLoop] at h
      exact Option.noConfusion h
  | succ n ih =>
      intro st path hinv h
      rw [astarLoop] at h
      cases hpop : popMin st.queue with
      | none => rw [hpop] at h; exact Option.noConfusion h
      | some er =>
          obtain ⟨e, rest⟩ := er
          rw [hpop] at h
          dsimp only at h
          obtain ⟨hemem, hrest⟩ := popMin_spec hpop
          by_cases hgoal : e.2.2 = goal
          · rw [if_pos hgoal] at h
            injection h with h
            subst h
            obtain ⟨g', hg', hle⟩ := hinv.qEntries e hemem
            have hlast := reconstruct_getLast hinv toWorld (rows * cols + 1)
              e.2.2 g' hg'
              (by have := cardBelow_le st rows cols g'; omega)
            have hhead := reconstruct_head toWorld st.cameFrom
              (rows * cols + 1) e.2.2
            refine ⟨?_, ?_, ?_⟩
            · rw [ne_eq, List.reverse_eq_nil_iff]
              exact reconstruct_ne_nil _ _ _ _
            · rw [List.head?_reverse, hlast]
            · rw [List.getLast?_reverse, hhead, hgoal]
          · rw [if_neg hgoal] at h
            by_cases hstale : ∃ g, st.gScore e.2.2 = some g ∧ g < e.2.1
            · rw [if_pos hstale] at h
              exact ih _ _ (AInv_queue_sub hinv rest hrest) h
            · rw [if_neg hstale] at h
              obtain ⟨g', hg', hle⟩ := hinv.qEntries e hemem
              have heq : g' = e.2.1 := by
                push_neg at hstale
                have := hstale g' hg'
                linarith
              subst heq
              exact ih _ _
                (foldl_relax_inv neighborsOffsets _ (fun d hd => hd)
                  (AInv_queue_sub hinv rest hrest) hg') h

/-- The requested point lies inside the rasterized grid's extent. -/
def inExtent (ri : RasterInput) (res : ℝ) (p : Pt) : Prop :=
  ri.minx ≤ p.1 ∧ p.1 < ri.minx + (gridCols ri res : ℝ) * res ∧
  ri.miny ≤ p.2 ∧ p.2 < ri.miny + (gridRows ri res : ℝ) * res

/-- For a point inside the grid extent, the center of its grid cell is within
`2 * res` of it (it is in fact within `res / sqrt 2`). -/
theorem world_to_grid_center_close (ri : RasterInput) (res : ℝ) (p : Pt)
    (hres : 0 < res) (hin : inExtent ri res p) :
    ptDist (cellCenter ri res (world_to_grid ri res p)) p ≤ 2 * res := by
  obtain ⟨h1, h2, h3, h4⟩ := hin
  have colbound : ∀ (a lo : ℝ) (cnt : ℕ), lo ≤ a → a < lo + cnt * res →
      |(lo + (((max 0 (min (pyTrunc ((a - lo) / res)) ((cnt : ℤ) - 1))).toNat : ℝ)
        + 0.5) * res) - a| ≤ 0.5 * res := by
    intro a lo cnt hlo hhi
    have hq0 : 0 ≤ (a - lo) / res := div_nonneg (by linarith) hres.le
    have hqlt : (a - lo) / res < (cnt : ℝ) := by
      rw [div_lt_iff₀ hres]
      linarith
    have htr : pyTrunc ((a - lo) / res) = ⌊(a - lo) / res⌋ := by
      rw [pyTrunc, if_neg (not_lt.mpr hq0)]
    have hf0 : 0 ≤ ⌊(a - lo) / res⌋ := Int.floor_nonneg.mpr hq0
    have hflt : ⌊(a - lo) / res⌋ < (cnt : ℤ) := by
      rw [Int.floor_lt]
      exact_mod_cast hqlt
    have hclamp : (max 0 (min (pyTrunc ((a - lo) / res)) ((cnt : ℤ) - 1))) =
        ⌊(a - lo) / res⌋ := by
      rw [htr]
      omega
    rw [hclamp]
    have hcast : ((⌊(a - lo) / res⌋.toNat : ℕ) : ℝ) = (⌊(a - lo) / res⌋ : ℝ) := by
      exact_mod_cast congrArg (Int.cast : ℤ → ℝ) (Int.toNat_of_nonneg hf0)
    rw [hcast]
    have hfl1 : (⌊(a - lo) / res⌋ : ℝ) ≤ (a - lo) / res := Int.floor_le _
    have hfl2 : (a - lo) / res - 1 < (⌊(a - lo) / res⌋ : ℝ) := by
      have := Int.lt_floor_add_one ((a - lo) / res)
      linarith
    rw [abs_le]
    have ha : a = lo + ((a - lo) / res) * res := by
      field_simp
    constructor <;> nlinarith
  have hx := colbound p.1 ri.minx (gridCols ri res) h1 h2
  have hy := colbound p.2 ri.miny (gridRows ri res) h3 h4
  rw [ptDist]
  refine Real.sqrt_le_iff.mpr ⟨by linarith, ?_⟩
  rw [abs_le] at hx hy
  rw [dist2, cellCenter, world_to_grid]
  dsimp only
  nlinarith [hx.1, hx.2, hy.1, hy.2, sq_nonneg res]

/-- **C2 (amended).** If `is_solvable` returns true then `find_path` returns
a non-empty polyline; its path length is at least the Euclidean distance
between its own first and last points; and whenever the requested start
(resp. goal) lies in the grid extent and rasterizes to an open cell, the
first (resp. last) point of the polyline lies within `2 * resolution` of it.
(As the counterexample shows, the distance and the `2r` bound do not hold
relative to the *requested* endpoints in general, because out-of-extent or
blocked endpoints are clamped and snapped arbitrarily far.) -/
theorem find_path_solvable_properties (ri : RasterInput) (res : ℝ)
    (start goal : Pt) (fuel : ℕ) (hres : 0 < res)
    (hsolv : is_solvable ri start goal res fuel = true) :
    ∃ (path : List Pt) (h l : Pt),
      find_path ri start goal res fuel = some path ∧ path ≠ [] ∧
      path.head? = some h ∧ path.getLast? = some l ∧
      ptDist h l ≤ calculate_path_length path ∧
      (gridBlocked ri res (world_to_grid ri res start) = false →
        inExtent ri res start → ptDist h start ≤ 2 * res) ∧
      (gridBlocked ri res (world_to_grid ri res goal) = false →
        inExtent ri res goal → ptDist l goal ≤ 2 * res) := by
  rw [is_solvable, Option.isSome_iff_exists] at hsolv
  obtain ⟨path0, hfp0⟩ := hsolv
  rw [find_path.eq_def] at hfp0
  dsimp only at hfp0
  split at hfp0
  case h_1 => exact Option.noConfusion hfp0
  case h_2 startRC heq =>
    split at hfp0
    case h_1 => exact Option.noConfusion hfp0
    case h_2 goalRC heq2 =>
      have hbs : startRC.1 < gridRows ri res ∧ startRC.2 < gridCols ri res := by
        by_cases hb : gridBlocked ri res (world_to_grid ri res start) = true
        · rw [if_pos hb] at heq
          obtain ⟨x1, x2, -⟩ := snapToOpen_sound heq
          exact ⟨x1, x2⟩
        · rw [if_neg hb] at heq
          injection heq with heq
          rw [← heq]
          exact world_to_grid_inBounds ri res start
      obtain ⟨hne, hhead, hlast⟩ := astarLoop_some fuel _ path0
        (AInv_init goalRC startRC (gridRows ri res) (gridCols ri res)
          hbs.1 hbs.2) hfp0
      refine ⟨path0, cellCenter ri res startRC, cellCenter ri res goalRC,
        ?_, hne, hhead, hlast, ?_, ?_, ?_⟩
      · rw [find_path.eq_def]
        dsimp only
        rw [heq, heq2]  -- hmm: need to rewrite the scrutinees
        exact hfp0
      · cases hpath : path0 with
        | nil => exact absurd hpath hne
        | cons a rest =>
            have hh : a = cellCenter ri res startRC := by
              rw [hpath] at hhead
              simp only [List.head?_cons, Option.some.injEq] at hhead
              exact hhead
            have hl : (a :: rest).getLast (by simp) = cellCenter ri res goalRC := by
              rw [hpath] at hlast
              rw [List.getLast?_eq_getLast _ (by simp)] at hlast
              simp only [Option.some.injEq] at hlast
              exact hlast
            rw [← hh, ← hl]
            exact calculate_path_length_ge a rest
      · intro hopen hin
        have hne' : ¬(gridBlocked ri res (world_to_grid ri res start) = true) := by
          rw [hopen]
          exact Bool.noConfusion
        rw [if_neg hne'] at heq
        injection heq with heq
        rw [← heq]
        exact world_to_grid_center_close ri res start hres hin
      · intro hopen hin
        have hne' : ¬(gridBlocked ri res (world_to_grid ri res goal) = true) := by
          rw [hopen]
          exact Bool.noConfusion
        rw [if_neg hne'] at heq2
        injection heq2 with heq2
        rw [← heq2]
        exact world_to_grid_center_close ri res goal hres hin

/-- The concrete raster for the C2 counterexample: a 10 m square field whose
containment test always succeeds, no walls, resolution 10 — a 1×1 grid whose
single cell center is `(5, 5)`. -/
noncomputable def cexRI : RasterInput :=
  ⟨0, 0, 10, 10, fun _ => true, false, fun _ => false⟩

theorem cexRI_rows : gridRows cexRI 10 = 1 := by
  rw [gridRows, pyTrunc]
  norm_num [cexRI]

theorem cexRI_cols : gridCols cexRI 10 = 1 := by
  rw [gridCols, pyTrunc]
  norm_num [cexRI]

theorem cexRI_open (rc : Cell) : gridBlocked cexRI 10 rc = false := by
  rw [gridBlocked]
  simp [cexRI]

/-- On the 1×1 grid, `find_path` with both endpoints mapping to the single
cell returns the one-point path at the cell center. -/
theorem cex_find_path (s g : Pt)
    (hs : world_to_grid cexRI 10 s = (0, 0))
    (hg : world_to_grid cexRI 10 g = (0, 0)) :
    find_path cexRI s g 10 1 = some [((5 : ℝ), (5 : ℝ))] := by
  rw [find_path.eq_def]
  dsimp only
  rw [hs, hg, cexRI_rows, cexRI_cols]
  rw [if_neg (by rw [cexRI_open]; exact Bool.noConfusion)]
  dsimp only
  rw [show (1 : ℕ) = 0 + 1 from rfl, astarLoop]
  rw [popMin]
  dsimp only
  rw [show minEntry (heuristic (0, 0) (0, 0), 0, (0, 0)) [] =
      (heuristic (0, 0) (0, 0), 0, (0, 0)) from rfl]
  rw [List.erase_cons_head]
  dsimp only
  rw [if_pos rfl]
  rw [show (1 * 1 + 1 : ℕ) = 1 + 1 from rfl]
  rw [reconstruct]
  dsimp only
  rw [show cellCenter cexRI 10 (0, 0) = ((5 : ℝ), (5 : ℝ)) by
    rw [cellCenter]; norm_num [cexRI]]
  rw [List.reverse_singleton]

theorem cex_w2g_far_start : world_to_grid cexRI 10 ((-1000 : ℝ), 5) = (0, 0) := by
  rw [world_to_grid, cexRI_rows, cexRI_cols]
  have h1 : pyTrunc ((5 - cexRI.miny) / 10) = 0 := by
    rw [pyTrunc, if_neg (by norm_num [cexRI])]
    rw [show ((5 : ℝ) - cexRI.miny) / 10 = 1 / 2 by norm_num [cexRI]]
    rw [Int.floor_eq_zero_iff]
    constructor <;> norm_num
  have h2 : pyTrunc (((-1000 : ℝ) - cexRI.minx) / 10) = -100 := by
    rw [pyTrunc, if_pos (by norm_num [cexRI])]
    rw [show ((-1000 : ℝ) - cexRI.minx) / 10 = -100 by norm_num [cexRI]]
    rw [show ((-100 : ℝ)) = ((-100 : ℤ) : ℝ) by norm_num, Int.ceil_intCast]
  rw [h1, h2]
  norm_num

theorem cex_w2g_far_goal : world_to_grid cexRI 10 ((1005 : ℝ), 5) = (0, 0) := by
  rw [world_to_grid, cexRI_rows, cexRI_cols]
  have h1 : pyTrunc ((5 - cexRI.miny) / 10) = 0 := by
    rw [pyTrunc, if_neg (by norm_num [cexRI])]
    rw [show ((5 : ℝ) - cexRI.miny) / 10 = 1 / 2 by norm_num [cexRI]]
    rw [Int.floor_eq_zero_iff]
    constructor <;> norm_num
  have h2 : pyTrunc (((1005 : ℝ) - cexRI.minx) / 10) = 100 := by
    rw [pyTrunc, if_neg (by norm_num [cexRI])]
    rw [show ((1005 : ℝ) - cexRI.minx) / 10 = 201 / 2 by norm_num [cexRI]]
    rw [Int.floor_eq_iff]
    constructor <;> norm_num
  rw [h1, h2]
  norm_num

/-- **C2 (counterexample).** On the 1×1 grid, with the requested start and
goal far outside the field, `is_solvable` is true and `find_path` returns the
single cell center `(5, 5)`: both endpoints are more than `2r = 20` from the
requested points, and the path length `0` is smaller than the Euclidean
distance `2005` between the requested start and goal — the claim fails. -/
theorem find_path_endpoints_counterexample :
    is_solvable cexRI ((-1000 : ℝ), 5) ((1005 : ℝ), 5) 10 1 = true ∧
    find_path cexRI ((-1000 : ℝ), 5) ((1005 : ℝ), 5) 10 1 =
      some [((5 : ℝ), (5 : ℝ))] ∧
    2 * 10 < ptDist ((5 : ℝ), (5 : ℝ)) ((-1000 : ℝ), 5) ∧
    2 * 10 < ptDist ((5 : ℝ), (5 : ℝ)) ((1005 : ℝ), 5) ∧
    calculate_path_length [((5 : ℝ), (5 : ℝ))] <
      ptDist ((-1000 : ℝ), 5) ((1005 : ℝ), 5) := by
  have hfp := cex_find_path _ _ cex_w2g_far_start cex_w2g_far_goal
  refine ⟨by rw [is_solvable, hfp]; rfl, hfp, ?_, ?_, ?_⟩
  · rw [ptDist, dist2]
    rw [show ((5 : ℝ) - -1000) ^ 2 + ((5 : ℝ) - 5) ^ 2 = 1005 ^ 2 by norm_num]
    rw [Real.sqrt_sq (by norm_num)]
    norm_num
  · rw [ptDist, dist2]
    rw [show ((5 : ℝ) - 1005) ^ 2 + ((5 : ℝ) - 5) ^ 2 = 1000 ^ 2 by norm_num]
    rw [Real.sqrt_sq (by norm_num)]
    norm_num
  · rw [ptDist, dist2]
    rw [show ((-1000 : ℝ) - 1005) ^ 2 + ((5 : ℝ) - 5) ^ 2 = 2005 ^ 2 by
      norm_num]
    rw [Real.sqrt_sq (by norm_num)]
    rw [show calculate_path_length [((5 : ℝ), (5 : ℝ))] = 0 from rfl]
    norm_num

theorem cex_w2g_near_start : world_to_grid cexRI 10 ((1 : ℝ), 1) = (0, 0) := by
  rw [world_to_grid, cexRI_rows, cexRI_cols]
  have h1 : pyTrunc ((1 - cexRI.miny) / 10) = 0 := by
    rw [pyTrunc, if_neg (by norm_num [cexRI])]
    rw [show ((1 : ℝ) - cexRI.miny) / 10 = 1 / 10 by norm_num [cexRI]]
    rw [Int.floor_eq_zero_iff]
    constructor <;> norm_num
  have h2 : pyTrunc ((1 - cexRI.minx) / 10) = 0 := by
    rw [pyTrunc, if_neg (by norm_num [cexRI])]
    rw [show ((1 : ℝ) - cexRI.minx) / 10 = 1 / 10 by norm_num [cexRI]]
    rw [Int.floor_eq_zero_iff]
    constructor <;> norm_num
  rw [h1, h2]
  norm_num

theorem cex_w2g_near_goal : world_to_grid cexRI 10 ((9 : ℝ), 9) = (0, 0) := by
  rw [world_to_grid, cexRI_rows, cexRI_cols]
  have h1 : pyTrunc ((9 - cexRI.miny) / 10) = 0 := by
    rw [pyTrunc, if_neg (by norm_num [cexRI])]
    rw [show ((9 : ℝ) - cexRI.miny) / 10 = 9 / 10 by norm_num [cexRI]]
    rw [Int.floor_eq_zero_iff]
    constructor <;> norm_num
  have h2 : pyTrunc ((9 - cexRI.minx) / 10) = 0 := by
    rw [pyTrunc, if_neg (by norm_num [cexRI])]
    rw [show ((9 : ℝ) - cexRI.minx) / 10 = 9 / 10 by norm_num [cexRI]]
    rw [Int.floor_eq_zero_iff]
    constructor <;> norm_num
  rw [h1, h2]
  norm_num

/-- Witness for the amended C2 on the concrete 1×1 raster with in-extent,
open start and goal. -/
theorem find_path_solvable_properties_witness :
    ((0 : ℝ) < 10 ∧
      is_solvable cexRI ((1 : ℝ), 1) ((9 : ℝ), 9) 10 1 = true) ∧
    (∃ (path : List Pt) (h l : Pt),
      find_path cexRI ((1 : ℝ), 1) ((9 : ℝ), 9) 10 1 = some path ∧ path ≠ [] ∧
      path.head? = some h ∧ path.getLast? = some l ∧
      ptDist h l ≤ calculate_path_length path ∧
      (gridBlocked cexRI 10 (world_to_grid cexRI 10 ((1 : ℝ), 1)) = false →
        inExtent cexRI 10 ((1 : ℝ), 1) → ptDist h ((1 : ℝ), 1) ≤ 2 * 10) ∧
      (gridBlocked cexRI 10 (world_to_grid cexRI 10 ((9 : ℝ), 9)) = false →
        inExtent cexRI 10 ((9 : ℝ), 9) → ptDist l ((9 : ℝ), 9) ≤ 2 * 10)) := by
  have hfp := cex_find_path _ _ cex_w2g_near_start cex_w2g_near_goal
  have hsolv : is_solvable cexRI ((1 : ℝ), 1) ((9 : ℝ), 9) 10 1 = true := by
    rw [is_solvable, hfp]
    rfl
  exact ⟨⟨by norm_num, hsolv⟩,
    find_path_solvable_properties cexRI 10 ((1 : ℝ), 1) ((9 : ℝ), 9) 1
      (by norm_num) hsolv⟩

/-! ## Curve densification (geometry/operations.py, lines 45–223)

`_circumscribed_circle` returns the circumcenter and radius of a vertex
triple, or `None` when `|d| < 1e-9`; `_arc_midpoint` returns the point of the
circle in the direction of the chord midpoint, falling back to the chord
midpoint itself when that midpoint is within `1e-12` of the center;
`_subdivide_arc` recursively splits a chord at the arc midpoint until the
sagitta is at most `max_dev`.  The source recursion is unbounded; the model
is fuel-indexed (when both endpoints lie on the circle the sagitta at least
halves at every level, so `64` units of fuel are never exhausted for
`R ≤ 1e9`), and every theorem quantifies over the fuel. -/

noncomputable section

/-- The determinant `d` of `_circumscribed_circle`. -/
def ccDenom (p0 p1 p2 : Pt) : ℝ :=
  2 * (p0.1 * (p1.2 - p2.2) + p1.1 * (p2.2 - p0.2) + p2.1 * (p0.2 - p1.2))

/-- The circumcenter `(ux, uy)` of `_circumscribed_circle`. -/
def ccCenter (p0 p1 p2 : Pt) : Pt :=
  (((p0.1 ^ 2 + p0.2 ^ 2) * (p1.2 - p2.2) + (p1.1 ^ 2 + p1.2 ^ 2) * (p2.2 - p0.2) +
      (p2.1 ^ 2 + p2.2 ^ 2) * (p0.2 - p1.2)) / ccDenom p0 p1 p2,
   ((p0.1 ^ 2 + p0.2 ^ 2) * (p2.1 - p1.1) + (p1.1 ^ 2 + p1.2 ^ 2) * (p0.1 - p2.1) +
      (p2.1 ^ 2 + p2.2 ^ 2) * (p1.1 - p0.1)) / ccDenom p0 p1 p2)

/-- Model of `_circumscribed_circle`: `(center, R)`, or `none` for
(near-)collinear triples. -/
def circumscribed_circle (p0 p1 p2 : Pt) : Option (Pt × ℝ) :=
  if |ccDenom p0 p1 p2| < 1 / 10 ^ 9 then none
  else some (ccCenter p0 p1 p2, ptDist p0 (ccCenter p0 p1 p2))

/-- The chord midpoint `((p0+p1)/2)`. -/
def chordMid (p0 p1 : Pt) : Pt := ((p0.1 + p1.1) / 2, (p0.2 + p1.2) / 2)

/-- Model of `_arc_midpoint`. -/
def arc_midpoint (p0 p1 c : Pt) (R : ℝ) : Pt :=
  if ptDist (chordMid p0 p1) c < 1 / 10 ^ 12 then chordMid p0 p1
  else
    (c.1 + R * ((chordMid p0 p1).1 - c.1) / ptDist (chordMid p0 p1) c,
     c.2 + R * ((chordMid p0 p1).2 - c.2) / ptDist (chordMid p0 p1) c)

/-- The sagitta `R - sqrt(max(0, R² - (chord/2)²))` computed by
`_subdivide_arc`. -/
def sagitta (p0 p1 : Pt) (R : ℝ) : ℝ :=
  R - Real.sqrt (max 0 (R ^ 2 - (ptDist p0 p1 / 2) ^ 2))

/-- Model of `_subdivide_arc` (fuel-indexed; returns the points after `p0`,
inclusive of `p1`). -/
def subdivide_arc (c : Pt) (R maxDev : ℝ) : ℕ → Pt → Pt → List Pt
  | 0, _, p1 => [p1]
  | fuel + 1, p0, p1 =>
      if R ≤ ptDist p0 p1 / 2 ∨ 10 ^ 9 < R then [p1]
      else if sagitta p0 p1 R ≤ maxDev then [p1]
      else
        subdivide_arc c R maxDev fuel p0 (arc_midpoint p0 p1 c R) ++
          subdivide_arc c R maxDev fuel (arc_midpoint p0 p1 c R) p1

/-- The vertex triple `_densify_coords` fits a circle through for segment
`i` (the last open-line segment falls back to the backward triple). -/
def tripleOf (coords : List Pt) (closed : Bool) (i : ℕ) : Pt × Pt × Pt :=
  if ¬closed = true ∧ i = coords.length - 2 then
    (coords.getD (coords.length - 3) (0, 0),
     coords.getD (coords.length - 2) (0, 0),
     coords.getD (coords.length - 1) (0, 0))
  else
    (coords.getD i (0, 0), coords.getD ((i + 1) % coords.length) (0, 0),
     coords.getD ((i + 2) % coords.length) (0, 0))

/-- The points contributed by segment `i` of `_densify_coords` (those
appended after `out = [coords[0]]` for this segment). -/
def densifySeg (coords : List Pt) (maxDev : ℝ) (closed : Bool) (fuel : ℕ)
    (i : ℕ) : List Pt :=
  match circumscribed_circle (tripleOf coords closed i).1
      (tripleOf coords closed i).2.1 (tripleOf coords closed i).2.2 with
  | none => [coords.getD ((i + 1) % coords.length) (0, 0)]
  | some (c, R) =>
      if 10 ^ 8 < R then [coords.getD ((i + 1) % coords.length) (0, 0)]
      else
        subdivide_arc c R maxDev fuel (coords.getD i (0, 0))
          (coords.getD ((i + 1) % coords.length) (0, 0))

/-- Model of `_densify_coords`. -/
def densify_coords (coords : List Pt) (maxDev : ℝ) (closed : Bool)
    (fuel : ℕ) : List Pt :=
  if coords.length < 3 then coords
  else
    coords.getD 0 (0, 0) ::
      (List.range (if closed then coords.length else coords.length - 1)).flatMap
        (densifySeg coords maxDev closed fuel)

end

/-- `_subdivide_arc` always returns a non-empty list ending in `p1`. -/
theorem subdivide_arc_shape (c : Pt) (R maxDev : ℝ) :
    ∀ (fuel : ℕ) (p0 p1 : Pt), ∃ pre,
      subdivide_arc c R maxDev fuel p0 p1 = pre ++ [p1] := by
  intro fuel
  induction fuel with
  | zero => exact fun p0 p1 => ⟨[], rfl⟩
  | succ n ih =>
      intro p0 p1
      rw [subdivide_arc]
      split
      · exact ⟨[], rfl⟩
      · split
        · exact ⟨[], rfl⟩
        · obtain ⟨pre1, h1⟩ := ih p0 (arc_midpoint p0 p1 c R)
          obtain ⟨pre2, h2⟩ := ih (arc_midpoint p0 p1 c R) p1
          refine ⟨subdivide_arc c R maxDev n p0 (arc_midpoint p0 p1 c R) ++ pre2, ?_⟩
          rw [h1, h2]
          simp [List.append_assoc]

/-- Each densification segment ends with the segment's second vertex. -/
theorem densifySeg_shape (coords : List Pt) (maxDev : ℝ) (closed : Bool)
    (fuel : ℕ) (i : ℕ) : ∃ pre,
      densifySeg coords maxDev closed fuel i =
        pre ++ [coords.getD ((i + 1) % coords.length) (0, 0)] := by
  rw [densifySeg]
  cases circumscribed_circle (tripleOf coords closed i).1
      (tripleOf coords closed i).2.1 (tripleOf coords closed i).2.2 with
  | none => exact ⟨[], rfl⟩
  | some cR =>
      obtain ⟨c, R⟩ := cR
      dsimp only
      split
      · exact ⟨[], rfl⟩
      · exact subdivide_arc_shape c R maxDev fuel _ _

/-- The vertices `v 0, …, v k` are a sublist of `v 0` followed by the
concatenation of `k` blocks where the `i`-th block ends in `v (i + 1)`. -/
theorem sublist_blocks (v : ℕ → Pt) (f : ℕ → List Pt) :
    ∀ k : ℕ, (∀ i < k, ∃ pre, f i = pre ++ [v (i + 1)]) →
      ((List.range (k + 1)).map v).Sublist
        (v 0 :: (List.range k).flatMap f) := by
  intro k
  induction k with
  | zero =>
      intro _h
      simp [show List.range 1 = [0] by simp [List.range_succ]]
  | succ n ih =>
      intro hblocks
      have h1 := ih (fun i hi => hblocks i (by omega))
      obtain ⟨pre, hpre⟩ := hblocks n (by omega)
      have hbind : (List.range (n + 1)).flatMap f =
          (List.range n).flatMap f ++ f n := by
        rw [List.range_succ, List.flatMap_append]
        simp
      rw [show List.range (n + 1 + 1) = List.range (n + 1) ++ [n + 1] from
        List.range_succ (n + 1), List.map_append, hbind]
      rw [show v 0 :: ((List.range n).flatMap f ++ f n) =
        (v 0 :: (List.range n).flatMap f) ++ f n from
        (List.cons_append _ _ _).symm]
      refine List.Sublist.append h1 ?_
      rw [List.map_cons, List.map_nil, hpre]
      exact List.sublist_append_right pre _

/-- A list equals the `getD` enumeration of its indices, taken mod length. -/
theorem list_eq_map_getD_mod (l : List Pt) :
    (List.range l.length).map (fun i => l.getD (i % l.length) (0, 0)) = l := by
  apply List.ext_getElem
  · simp
  · intro i h1 h2
    simp only [List.getElem_map, List.getElem_range]
    rw [Nat.mod_eq_of_lt h2, List.getD_eq_getElem]

/-- Inserted points only: the original coordinates are a sublist of the
densified coordinates. -/
theorem densify_coords_sublist (coords : List Pt) (maxDev : ℝ)
    (closed : Bool) (fuel : ℕ) :
    coords.Sublist (densify_coords coords maxDev closed fuel) := by
  rw [densify_coords]
  split
  · exact List.Sublist.refl coords
  case isFalse hlen =>
    have hn3 : 3 ≤ coords.length := by omega
    cases closed with
    | false =>
        have hk := sublist_blocks (fun i => coords.getD (i % coords.length) (0, 0))
          (densifySeg coords maxDev false fuel) (coords.length - 1)
          (fun i _ => densifySeg_shape coords maxDev false fuel i)
        have hrange : coords.length - 1 + 1 = coords.length := by omega
        rw [hrange, list_eq_map_getD_mod coords] at hk
        simp only [Nat.zero_mod] at hk
        simp only [Bool.false_eq_true, if_false]
        exact hk
    | true =>
        have hk := sublist_blocks (fun i => coords.getD (i % coords.length) (0, 0))
          (densifySeg coords maxDev true fuel) coords.length
          (fun i _ => densifySeg_shape coords maxDev true fuel i)
        rw [List.range_succ, List.map_append, list_eq_map_getD_mod coords] at hk
        simp only [Nat.zero_mod, Nat.mod_self, List.map_cons, List.map_nil] at hk
        rw [if_pos rfl]
        exact (List.sublist_append_left coords _).trans hk

/-- A segment whose triple is collinear (zero determinant), or whose fitted
circumscribed circle has radius above `1e8`, is kept unchanged: the segment
contributes exactly its second vertex, with nothing inserted. -/
theorem densifySeg_unchanged (coords : List Pt) (maxDev : ℝ) (closed : Bool)
    (fuel : ℕ) (i : ℕ)
    (h : ccDenom (tripleOf coords closed i).1 (tripleOf coords closed i).2.1
        (tripleOf coords closed i).2.2 = 0 ∨
      10 ^ 8 < ptDist (tripleOf coords closed i).1
        (ccCenter (tripleOf coords closed i).1 (tripleOf coords closed i).2.1
          (tripleOf coords closed i).2.2)) :
    densifySeg coords maxDev closed fuel i =
      [coords.getD ((i + 1) % coords.length) (0, 0)] := by
  rw [densifySeg]
  rcases h with h | h
  · rw [circumscribed_circle, if_pos]
    rw [h]
    norm_num
  · rw [circumscribed_circle]
    split
    · rfl
    next c R heq =>
      split at heq
      · exact absurd heq (by simp)
      · rw [Option.some.injEq, Prod.mk.injEq] at heq
        obtain ⟨h1, h2⟩ := heq
        subst h1
        subst h2
        rw [if_pos h]

/-- The arc midpoint lies on the circle, or (in the degenerate guard) within
`1e-12` of the center. -/
theorem arc_midpoint_dist (p0 p1 c : Pt) (R : ℝ) (hR : 0 ≤ R) :
    ptDist (arc_midpoint p0 p1 c R) c = R ∨
      ptDist (arc_midpoint p0 p1 c R) c < 1 / 10 ^ 12 := by
  rw [arc_midpoint]
  split
  case isTrue hmag => exact Or.inr hmag
  case isFalse hmag =>
    left
    have hmagpos : 0 < ptDist (chordMid p0 p1) c :=
      lt_of_lt_of_le (by norm_num) (not_lt.mp hmag)
    have hmag2 : ptDist (chordMid p0 p1) c ^ 2 = dist2 (chordMid p0 p1) c :=
      Real.sq_sqrt (dist2_nonneg _ _)
    rw [dist2] at hmag2
    rw [ptDist, show dist2
        (c.1 + R * ((chordMid p0 p1).1 - c.1) / ptDist (chordMid p0 p1) c,
         c.2 + R * ((chordMid p0 p1).2 - c.2) / ptDist (chordMid p0 p1) c) c
        = R ^ 2 from ?_]
    · exact Real.sqrt_sq hR
    · rw [dist2]
      dsimp only
      field_simp
      nlinarith [hmag2, sq_nonneg (ptDist (chordMid p0 p1) c)]

/-- Every point produced by `_subdivide_arc` is the chord end `p1`, a point
exactly on the circle, or a degenerate chord midpoint within `1e-12` of the
center. -/
theorem subdivide_arc_mem (c : Pt) (R maxDev : ℝ) (hR : 0 ≤ R) :
    ∀ (fuel : ℕ) (p0 p1 q : Pt),
      q ∈ subdivide_arc c R maxDev fuel p0 p1 →
      q = p1 ∨ ptDist q c = R ∨ ptDist q c < 1 / 10 ^ 12 := by
  intro fuel
  induction fuel with
  | zero =>
      intro p0 p1 q hq
      rw [subdivide_arc] at hq
      rw [List.mem_singleton] at hq
      exact Or.inl hq
  | succ n ih =>
      intro p0 p1 q hq
      rw [subdivide_arc] at hq
      split at hq
      · rw [List.mem_singleton] at hq
        exact Or.inl hq
      · split at hq
        · rw [List.mem_singleton] at hq
          exact Or.inl hq
        · rw [List.mem_append] at hq
          rcases hq with hq | hq
          · rcases ih p0 _ q hq with h | h
            · subst h
              rcases arc_midpoint_dist p0 p1 c R hR with h | h
              · exact Or.inr (Or.inl h)
              · exact Or.inr (Or.inr h)
            · exact Or.inr h
          · exact ih _ p1 q hq

/-- For chord endpoints on the circle, the squared center–chord-midpoint
distance and the squared half-chord sum to `R²`. -/
theorem mid_half_pythagoras {p0 p1 c : Pt} {R : ℝ}
    (h0 : dist2 p0 c = R ^ 2) (h1 : dist2 p1 c = R ^ 2) :
    dist2 (chordMid p0 p1) c + dist2 p0 p1 / 4 = R ^ 2 := by
  rw [dist2, dist2, chordMid] at *
  dsimp only at *
  linear_combination h0 / 2 + h1 / 2

/-- With both endpoints on the circle, the sagitta equals `R` minus the
distance from the center to the chord midpoint. -/
theorem sagitta_eq {p0 p1 c : Pt} {R : ℝ} (hR : 0 ≤ R)
    (h0 : dist2 p0 c = R ^ 2) (h1 : dist2 p1 c = R ^ 2) :
    sagitta p0 p1 R = R - ptDist (chordMid p0 p1) c := by
  have hpyth := mid_half_pythagoras h0 h1
  have hhalf : (ptDist p0 p1 / 2) ^ 2 = dist2 p0 p1 / 4 := by
    rw [div_pow, ptDist, Real.sq_sqrt (dist2_nonneg _ _)]
    norm_num
  rw [sagitta, hhalf]
  have : R ^ 2 - dist2 p0 p1 / 4 = dist2 (chordMid p0 p1) c := by linarith
  rw [this, max_eq_right (dist2_nonneg _ _), ptDist]

/-- The squared chord from either endpoint to the (non-degenerate) arc
midpoint is `2R` times the sagitta. -/
theorem chord_to_mid_sq {p0 p1 c : Pt} {R : ℝ} (hR : 0 ≤ R)
    (h0 : dist2 p0 c = R ^ 2) (h1 : dist2 p1 c = R ^ 2)
    (hmag : (1 : ℝ) / 10 ^ 12 ≤ ptDist (chordMid p0 p1) c) :
    dist2 p0 (arc_midpoint p0 p1 c R) =
      2 * R * (R - ptDist (chordMid p0 p1) c) ∧
    dist2 (arc_midpoint p0 p1 c R) p1 =
      2 * R * (R - ptDist (chordMid p0 p1) c) := by
  obtain ⟨a1, a2⟩ := p0
  obtain ⟨b1, b2⟩ := p1
  obtain ⟨e1, e2⟩ := c
  have hMpos : 0 < ptDist (chordMid (a1, a2) (b1, b2)) (e1, e2) :=
    lt_of_lt_of_le (by norm_num) hmag
  have hMne : ptDist (chordMid (a1, a2) (b1, b2)) (e1, e2) ≠ 0 :=
    ne_of_gt hMpos
  set M := ptDist (chordMid (a1, a2) (b1, b2)) (e1, e2) with hMdef
  have hM2 : M ^ 2 = dist2 (chordMid (a1, a2) (b1, b2)) (e1, e2) :=
    Real.sq_sqrt (dist2_nonneg _ _)
  rw [dist2, chordMid] at hM2
  dsimp only at hM2
  rw [dist2] at h0 h1
  dsimp only at h0 h1
  have hMM : ((a1 + b1) / 2 - e1) ^ 2 + ((a2 + b2) / 2 - e2) ^ 2 = M ^ 2 :=
    hM2.symm
  have hS0 : (a1 - e1) * ((a1 + b1) / 2 - e1) +
      (a2 - e2) * ((a2 + b2) / 2 - e2) = M ^ 2 := by
    linear_combination hMM + h0 / 4 - h1 / 4
  have hS1 : (b1 - e1) * ((a1 + b1) / 2 - e1) +
      (b2 - e2) * ((a2 + b2) / 2 - e2) = M ^ 2 := by
    linear_combination hMM + h1 / 4 - h0 / 4
  rw [arc_midpoint, if_neg (not_lt.mpr hmag), chordMid]
  dsimp only
  rw [show ptDist ((a1 + b1) / 2, (a2 + b2) / 2) (e1, e2) = M by
    rw [hMdef, chordMid]]
  constructor
  · have expand : dist2 (a1, a2)
        (e1 + R * ((a1 + b1) / 2 - e1) / M, e2 + R * ((a2 + b2) / 2 - e2) / M) =
        ((a1 - e1) ^ 2 + (a2 - e2) ^ 2) +
          (R / M) ^ 2 * (((a1 + b1) / 2 - e1) ^ 2 + ((a2 + b2) / 2 - e2) ^ 2) -
          2 * (R / M) * ((a1 - e1) * ((a1 + b1) / 2 - e1) +
            (a2 - e2) * ((a2 + b2) / 2 - e2)) := by
      rw [dist2]
      dsimp only
      ring
    rw [expand, h0, hMM, hS0]
    field_simp
    ring
  · have expand : dist2
        (e1 + R * ((a1 + b1) / 2 - e1) / M, e2 + R * ((a2 + b2) / 2 - e2) / M)
        (b1, b2) =
        ((b1 - e1) ^ 2 + (b2 - e2) ^ 2) +
          (R / M) ^ 2 * (((a1 + b1) / 2 - e1) ^ 2 + ((a2 + b2) / 2 - e2) ^ 2) -
          2 * (R / M) * ((b1 - e1) * ((a1 + b1) / 2 - e1) +
            (b2 - e2) * ((a2 + b2) / 2 - e2)) := by
      rw [dist2]
      dsimp only
      ring
    rw [expand, h1, hMM, hS1]
    field_simp
    ring

theorem sagitta_le_R (p0 p1 : Pt) (R : ℝ) : sagitta p0 p1 R ≤ R := by
  rw [sagitta]
  have := Real.sqrt_nonneg (max 0 (R ^ 2 - (ptDist p0 p1 / 2) ^ 2))
  linarith

/-- With both endpoints on a circle of radius `R ≤ 1e9`, a subdivided chord
(no degenerate midpoints in the output, chord shorter than the diameter)
yields a polyline whose every link has sagitta at most `max_dev`, provided
`max_dev · 2^fuel` dominates the initial sagitta (the sagitta at least
halves at each level). -/
theorem subdivide_arc_chain (c : Pt) (maxDev : ℝ)
    (hd : (1 : ℝ) / 10 ^ 12 ≤ maxDev) {R : ℝ} (hR9 : R ≤ 10 ^ 9) :
    ∀ (fuel : ℕ) (p0 p1 : Pt),
      ptDist p0 c = R → ptDist p1 c = R → ptDist p0 p1 / 2 < R →
      (∀ q ∈ subdivide_arc c R maxDev fuel p0 p1, ptDist q c = R) →
      sagitta p0 p1 R ≤ maxDev * 2 ^ fuel →
      List.Chain' (fun a b => sagitta a b R ≤ maxDev)
        (p0 :: subdivide_arc c R maxDev fuel p0 p1) := by
  intro fuel
  induction fuel with
  | zero =>
      intro p0 p1 h0 h1 hhalf hclean hfuel
      rw [subdivide_arc]
      refine List.chain'_pair.mpr ?_
      simpa using hfuel
  | succ n ih =>
      intro p0 p1 h0 h1 hhalf hclean hfuel
      have hguard : ¬(R ≤ ptDist p0 p1 / 2 ∨ 10 ^ 9 < R) := by
        push_neg
        exact ⟨hhalf, hR9⟩
      rw [subdivide_arc] at hclean ⊢
      rw [if_neg hguard] at hclean ⊢
      by_cases hs : sagitta p0 p1 R ≤ maxDev
      · rw [if_pos hs]
        exact List.chain'_pair.mpr hs
      · rw [if_neg hs] at hclean ⊢
        have hR0 : 0 < R :=
          lt_of_le_of_lt (div_nonneg (Real.sqrt_nonneg _) (by norm_num)) hhalf
        have hd0 : dist2 p0 c = R ^ 2 := by
          rw [← h0, ptDist, Real.sq_sqrt (dist2_nonneg p0 c)]
        have hd1 : dist2 p1 c = R ^ 2 := by
          rw [← h1, ptDist, Real.sq_sqrt (dist2_nonneg p1 c)]
        have hmmem : arc_midpoint p0 p1 c R ∈
            subdivide_arc c R maxDev n p0 (arc_midpoint p0 p1 c R) ++
              subdivide_arc c R maxDev n (arc_midpoint p0 p1 c R) p1 := by
          obtain ⟨pre, hpre⟩ :=
            subdivide_arc_shape c R maxDev n p0 (arc_midpoint p0 p1 c R)
          rw [List.mem_append, hpre]
          left
          simp
        have hmR : ptDist (arc_midpoint p0 p1 c R) c = R :=
          hclean _ hmmem
        have hmag : (1 : ℝ) / 10 ^ 12 ≤ ptDist (chordMid p0 p1) c := by
          by_contra hcon
          push_neg at hcon
          have hmd : arc_midpoint p0 p1 c R = chordMid p0 p1 := by
            rw [arc_midpoint, if_pos hcon]
          rw [hmd] at hmR
          have hsR := sagitta_le_R p0 p1 R
          have hRsmall : R < 1 / 10 ^ 12 := hmR ▸ hcon
          exact hs (le_trans hsR (le_trans (le_of_lt hRsmall) hd))
        obtain ⟨hc0, hc1⟩ := chord_to_mid_sq (le_of_lt hR0) hd0 hd1 hmag
        have hsag : sagitta p0 p1 R = R - ptDist (chordMid p0 p1) c :=
          sagitta_eq (le_of_lt hR0) hd0 hd1
        have hspos : 0 < sagitta p0 p1 R :=
          lt_of_lt_of_le (lt_of_lt_of_le (by norm_num) hd) (le_of_lt (not_le.mp hs))
        have hsltR : sagitta p0 p1 R < R := by
          have hMpos : 0 < ptDist (chordMid p0 p1) c :=
            lt_of_lt_of_le (by norm_num) hmag
          rw [hsag]
          linarith
        rw [← hsag] at hc0 hc1
        have hfuel' : sagitta p0 p1 R / 2 ≤ maxDev * 2 ^ n := by
          rw [pow_succ] at hfuel
          linarith
        have hsub : ∀ x y : Pt, dist2 x y = 2 * R * sagitta p0 p1 R →
            ptDist x y / 2 < R ∧ sagitta x y R ≤ sagitta p0 p1 R / 2 := by
          intro x y hxy
          have hsq : ptDist x y ^ 2 = dist2 x y :=
            Real.sq_sqrt (dist2_nonneg x y)
          have hnn : 0 ≤ ptDist x y := Real.sqrt_nonneg _
          have hlt : ptDist x y / 2 < R := by
            nlinarith [hsq, hxy, hsltR, hR0, hspos, hnn]
          refine ⟨hlt, ?_⟩
          rw [sagitta]
          have hq : (ptDist x y / 2) ^ 2 = R * sagitta p0 p1 R / 2 := by
            rw [div_pow, hsq, hxy]
            ring
          rw [hq]
          have hmax : max 0 (R ^ 2 - R * sagitta p0 p1 R / 2) =
              R ^ 2 - R * sagitta p0 p1 R / 2 :=
            max_eq_right (by nlinarith [hsltR, hR0, hspos])
          rw [hmax]
          have hle : R - sagitta p0 p1 R / 2 ≤
              Real.sqrt (R ^ 2 - R * sagitta p0 p1 R / 2) := by
            apply Real.le_sqrt_of_sq_le
            nlinarith [hsltR, hR0, hspos]
          linarith
        obtain ⟨hhalf0, hnew0⟩ := hsub p0 (arc_midpoint p0 p1 c R) hc0
        obtain ⟨hhalf1, hnew1⟩ := hsub (arc_midpoint p0 p1 c R) p1 hc1
        have hchain0 := ih p0 (arc_midpoint p0 p1 c R) h0 hmR hhalf0
          (fun q hq => hclean q (List.mem_append.mpr (Or.inl hq)))
          (le_trans hnew0 hfuel')
        have hchain1 := ih (arc_midpoint p0 p1 c R) p1 hmR h1 hhalf1
          (fun q hq => hclean q (List.mem_append.mpr (Or.inr hq)))
          (le_trans hnew1 hfuel')
        rw [show p0 :: (subdivide_arc c R maxDev n p0 (arc_midpoint p0 p1 c R) ++
            subdivide_arc c R maxDev n (arc_midpoint p0 p1 c R) p1) =
          (p0 :: subdivide_arc c R maxDev n p0 (arc_midpoint p0 p1 c R)) ++
            subdivide_arc c R maxDev n (arc_midpoint p0 p1 c R) p1 from
          (List.cons_append _ _ _).symm]
        rw [List.chain'_append]
        refine ⟨hchain0, (List.chain'_cons'.mp hchain1).2, ?_⟩
        intro x hx y hy
        obtain ⟨pre, hpre⟩ :=
          subdivide_arc_shape c R maxDev n p0 (arc_midpoint p0 p1 c R)
        have hxm : x = arc_midpoint p0 p1 c R := by
          rw [hpre] at hx
          rw [show (p0 :: (pre ++ [arc_midpoint p0 p1 c R])) =
            (p0 :: pre) ++ [arc_midpoint p0 p1 c R] from
            (List.cons_append _ _ _).symm] at hx
          rw [List.getLast?_concat] at hx
          exact (Option.mem_some_iff.mp hx).symm
        subst hxm
        exact (List.chain'_cons'.mp hchain1).1 y hy

theorem getD_mem_of_lt (l : List Pt) (n : ℕ) (h : n < l.length) :
    l.getD n (0, 0) ∈ l := by
  rw [List.getD_eq_getElem l (0, 0) h]
  exact List.getElem_mem h

theorem circumscribed_circle_R_nonneg {p0 p1 p2 : Pt} {cc : Pt} {R : ℝ}
    (h : circumscribed_circle p0 p1 p2 = some (cc, R)) : 0 ≤ R := by
  rw [circumscribed_circle] at h
  split at h
  · exact absurd h (by simp)
  · rw [Option.some.injEq, Prod.mk.injEq] at h
    have h2 : 0 ≤ ptDist p0 (ccCenter p0 p1 p2) := Real.sqrt_nonneg _
    rw [h.2] at h2
    exact h2

/-- C5 (amended): the densified coordinates (i) contain the original
vertices in order (only insertions happen); (ii) a segment whose fitted
triple is exactly collinear, or whose circumscribed radius exceeds `1e8`,
is kept unchanged; (iii) every produced point is an original vertex or lies
on its segment's fitted circumscribed circle — or, through the degenerate
`_arc_midpoint` guard, within `1e-12` of that circle's *center*; and (iv)
on any chord of a circle of radius `R ≤ 1e9` whose subdivision stays on the
circle, once `max_dev·2^fuel` dominates the initial sagitta every link of
the resulting polyline has sagitta at most `max_dev`. -/
theorem densify_coords_properties (coords : List Pt) (maxDev : ℝ)
    (closed : Bool) (fuel : ℕ) :
    coords.Sublist (densify_coords coords maxDev closed fuel) ∧
    (∀ i, (ccDenom (tripleOf coords closed i).1 (tripleOf coords closed i).2.1
          (tripleOf coords closed i).2.2 = 0 ∨
        10 ^ 8 < ptDist (tripleOf coords closed i).1
          (ccCenter (tripleOf coords closed i).1 (tripleOf coords closed i).2.1
            (tripleOf coords closed i).2.2)) →
      densifySeg coords maxDev closed fuel i =
        [coords.getD ((i + 1) % coords.length) (0, 0)]) ∧
    (∀ q ∈ densify_coords coords maxDev closed fuel, q ∈ coords ∨
      ∃ i cc R, circumscribed_circle (tripleOf coords closed i).1
          (tripleOf coords closed i).2.1 (tripleOf coords closed i).2.2 =
            some (cc, R) ∧
        (ptDist q cc = R ∨ ptDist q cc < 1 / 10 ^ 12)) ∧
    ((1 : ℝ) / 10 ^ 12 ≤ maxDev → ∀ (c : Pt) (R : ℝ) (p0 p1 : Pt),
      R ≤ 10 ^ 9 → ptDist p0 c = R → ptDist p1 c = R →
      ptDist p0 p1 / 2 < R →
      (∀ q ∈ subdivide_arc c R maxDev fuel p0 p1, ptDist q c = R) →
      sagitta p0 p1 R ≤ maxDev * 2 ^ fuel →
      List.Chain' (fun a b => sagitta a b R ≤ maxDev)
        (p0 :: subdivide_arc c R maxDev fuel p0 p1)) := by
  refine ⟨densify_coords_sublist coords maxDev closed fuel,
    fun i h => densifySeg_unchanged coords maxDev closed fuel i h, ?_, ?_⟩
  · intro q hq
    rw [densify_coords] at hq
    split at hq
    · exact Or.inl hq
    case isFalse hlen =>
      have hpos : 0 < coords.length := by omega
      rcases List.mem_cons.mp hq with hq | hq
      · subst hq
        exact Or.inl (getD_mem_of_lt coords 0 hpos)
      · rw [List.mem_flatMap] at hq
        obtain ⟨i, _hi, hqi⟩ := hq
        cases hcirc : circumscribed_circle (tripleOf coords closed i).1
            (tripleOf coords closed i).2.1 (tripleOf coords closed i).2.2 with
        | none =>
            rw [densifySeg, hcirc] at hqi
            rw [List.mem_singleton] at hqi
            subst hqi
            exact Or.inl (getD_mem_of_lt coords _ (Nat.mod_lt _ hpos))
        | some cR =>
            obtain ⟨cc, R⟩ := cR
            rw [densifySeg, hcirc] at hqi
            dsimp only at hqi
            by_cases hR8 : (10 : ℝ) ^ 8 < R
            · rw [if_pos hR8, List.mem_singleton] at hqi
              subst hqi
              exact Or.inl (getD_mem_of_lt coords _ (Nat.mod_lt _ hpos))
            · rw [if_neg hR8] at hqi
              have hR0 := circumscribed_circle_R_nonneg hcirc
              rcases subdivide_arc_mem cc R maxDev hR0 fuel _ _ q hqi with h | h
              · subst h
                exact Or.inl (getD_mem_of_lt coords _ (Nat.mod_lt _ hpos))
              · exact Or.inr ⟨i, cc, R, hcirc, h⟩
  · intro hd c R p0 p1 hR9 h0 h1 hh hcl hf
    exact subdivide_arc_chain c maxDev hd hR9 fuel p0 p1 h0 h1 hh hcl hf

noncomputable section

/-- Witness input for the densify properties: a collinear triple. -/
def cexW : List Pt := [((0 : ℝ), (0 : ℝ)), ((1 : ℝ), (0 : ℝ)), ((2 : ℝ), (0 : ℝ))]

end

theorem sagW_zero : sagitta ((1 : ℝ), (0 : ℝ)) ((1 : ℝ), (0 : ℝ)) 1 = 0 := by
  rw [sagitta, ptDist_self]
  norm_num

theorem ptW_one : ptDist ((1 : ℝ), (0 : ℝ)) ((0 : ℝ), (0 : ℝ)) = 1 := by
  rw [ptDist, dist2]
  norm_num

theorem subW_eval : subdivide_arc ((0 : ℝ), (0 : ℝ)) 1 (3 / 20) 64
    ((1 : ℝ), (0 : ℝ)) ((1 : ℝ), (0 : ℝ)) = [((1 : ℝ), (0 : ℝ))] := by
  have hA : ¬((1 : ℝ) ≤ ptDist ((1 : ℝ), (0 : ℝ)) ((1 : ℝ), (0 : ℝ)) / 2 ∨
      (10 : ℝ) ^ 9 < 1) := by
    push_neg
    rw [ptDist_self]
    norm_num
  have hB : sagitta ((1 : ℝ), (0 : ℝ)) ((1 : ℝ), (0 : ℝ)) 1 ≤ 3 / 20 := by
    rw [sagW_zero]
    norm_num
  rw [show (64 : ℕ) = 63 + 1 from rfl, subdivide_arc, if_neg hA, if_pos hB]

/-- Witness for C5's amended properties at a concrete collinear input. -/
theorem densify_coords_properties_witness :
    cexW.Sublist (densify_coords cexW (3 / 20) false 64) ∧
    densifySeg cexW (3 / 20) false 64 0 = [((1 : ℝ), (0 : ℝ))] ∧
    (((0 : ℝ), (0 : ℝ)) ∈ cexW ∨
      ∃ i cc R, circumscribed_circle (tripleOf cexW false i).1
          (tripleOf cexW false i).2.1 (tripleOf cexW false i).2.2 =
            some (cc, R) ∧
        (ptDist ((0 : ℝ), (0 : ℝ)) cc = R ∨
          ptDist ((0 : ℝ), (0 : ℝ)) cc < 1 / 10 ^ 12)) ∧
    List.Chain' (fun a b => sagitta a b 1 ≤ 3 / 20)
      (((1 : ℝ), (0 : ℝ)) :: subdivide_arc ((0 : ℝ), (0 : ℝ)) 1 (3 / 20) 64
        ((1 : ℝ), (0 : ℝ)) ((1 : ℝ), (0 : ℝ))) := by
  obtain ⟨h1, h2, h3, h4⟩ :=
    densify_coords_properties cexW (3 / 20) false 64
  refine ⟨h1, ?_, ?_, ?_⟩
  · have hcc : ccDenom (tripleOf cexW false 0).1 (tripleOf cexW false 0).2.1
        (tripleOf cexW false 0).2.2 = 0 := by
      rw [show tripleOf cexW false 0 =
        (((0 : ℝ), (0 : ℝ)), ((1 : ℝ), (0 : ℝ)), ((2 : ℝ), (0 : ℝ))) from rfl]
      rw [ccDenom]
      norm_num
    have hval := h2 0 (Or.inl hcc)
    rw [hval]
    rfl
  · refine h3 ((0 : ℝ), (0 : ℝ)) ?_
    rw [densify_coords]
    rw [if_neg (by norm_num [cexW])]
    exact List.mem_cons_self _ _
  · refine h4 (by norm_num) ((0 : ℝ), (0 : ℝ)) 1 ((1 : ℝ), (0 : ℝ))
      ((1 : ℝ), (0 : ℝ)) (by norm_num) ptW_one ptW_one ?_ ?_ ?_
    · rw [ptDist_self]
      norm_num
    · intro q hq
      rw [subW_eval, List.mem_singleton] at hq
      subst hq
      exact ptW_one
    · rw [sagW_zero]
      positivity

noncomputable section

/-- The circumcenter height of the counterexample triple (≈ 1.05e-13). -/
def kv : ℝ := (2 * 10 ^ 13 + 1) / (2 * 10 ^ 26 + 2 * 10 ^ 13)

/-- Counterexample input: a near-degenerate isosceles triple whose
circumcenter lies within `1e-12` of the first chord's midpoint. -/
def cex5 : List Pt := [((-1 : ℝ), 0), (1, 0), (0, 1 + 1 / 10 ^ 13)]

/-- Its circumcenter. -/
def cexC : Pt := ((0 : ℝ), kv)

/-- Its circumradius. -/
def cexR : ℝ := ptDist ((-1 : ℝ), 0) cexC

end

theorem kv_pos : 0 < kv := by
  rw [kv]
  norm_num

theorem kv_lt : kv < 1 / 10 ^ 12 := by
  rw [kv]
  rw [div_lt_div_iff (by norm_num) (by norm_num)]
  norm_num

theorem cexR_sq : cexR ^ 2 = 1 + kv ^ 2 := by
  rw [cexR, cexC, ptDist]
  rw [Real.sq_sqrt (dist2_nonneg _ _), dist2]
  norm_num

theorem one_lt_cexR : 1 < cexR := by
  rw [cexR, cexC, ptDist, dist2]
  dsimp only
  rw [show ((-1 : ℝ) - 0) ^ 2 + ((0 : ℝ) - kv) ^ 2 = 1 + kv ^ 2 by ring]
  refine (Real.lt_sqrt (by norm_num)).mpr ?_
  nlinarith [kv_pos]

theorem cexR_le : cexR ≤ 10 ^ 8 := by
  rw [cexR, cexC, ptDist, dist2]
  dsimp only
  rw [show ((-1 : ℝ) - 0) ^ 2 + ((0 : ℝ) - kv) ^ 2 = 1 + kv ^ 2 by ring]
  have hb : (1 : ℝ) + kv ^ 2 ≤ ((10 : ℝ) ^ 8) ^ 2 := by
    have h1 := kv_pos
    have h2 := kv_lt
    nlinarith
  calc Real.sqrt (1 + kv ^ 2) ≤ Real.sqrt (((10 : ℝ) ^ 8) ^ 2) :=
        Real.sqrt_le_sqrt hb
    _ = 10 ^ 8 := Real.sqrt_sq (by norm_num)

theorem ptAB_two : ptDist ((-1 : ℝ), 0) ((1 : ℝ), 0) = 2 := by
  rw [ptDist, dist2]
  dsimp only
  rw [show ((-1 : ℝ) - 1) ^ 2 + ((0 : ℝ) - 0) ^ 2 = 2 ^ 2 by ring]
  exact Real.sqrt_sq (by norm_num)

theorem pt00C : ptDist ((0 : ℝ), (0 : ℝ)) cexC = kv := by
  rw [ptDist, dist2, cexC]
  dsimp only
  rw [show ((0 : ℝ) - 0) ^ 2 + ((0 : ℝ) - kv) ^ 2 = kv ^ 2 by ring]
  exact Real.sqrt_sq (le_of_lt kv_pos)

theorem cex5_circle : circumscribed_circle ((-1 : ℝ), 0) ((1 : ℝ), 0)
    ((0 : ℝ), 1 + 1 / 10 ^ 13) = some (cexC, cexR) := by
  have hden : ccDenom ((-1 : ℝ), 0) ((1 : ℝ), 0) ((0 : ℝ), 1 + 1 / 10 ^ 13) =
      4 + 4 / 10 ^ 13 := by
    rw [ccDenom]
    dsimp only
    ring
  have hcen : ccCenter ((-1 : ℝ), 0) ((1 : ℝ), 0) ((0 : ℝ), 1 + 1 / 10 ^ 13) =
      cexC := by
    rw [ccCenter, hden, cexC, kv]
    refine Prod.ext ?_ ?_
    · dsimp only
      norm_num
    · dsimp only
      rw [div_eq_div_iff (by norm_num) (by norm_num)]
      norm_num
  rw [circumscribed_circle, if_neg, hcen]
  · rw [cexR, cexC]
  · rw [hden, not_lt]
    rw [abs_of_pos (by norm_num)]
    norm_num

theorem cex_arcmid : arc_midpoint ((-1 : ℝ), 0) ((1 : ℝ), 0) cexC cexR =
    ((0 : ℝ), (0 : ℝ)) := by
  have hmid : chordMid ((-1 : ℝ), 0) ((1 : ℝ), 0) = ((0 : ℝ), (0 : ℝ)) := by
    rw [chordMid]
    norm_num
  rw [arc_midpoint, hmid, if_pos]
  rw [pt00C]
  exact kv_lt

theorem cex_sagitta_big : ¬sagitta ((-1 : ℝ), 0) ((1 : ℝ), 0) cexR ≤ 3 / 20 := by
  rw [sagitta, ptAB_two]
  rw [show cexR ^ 2 - ((2 : ℝ) / 2) ^ 2 = kv ^ 2 by rw [cexR_sq]; ring]
  rw [max_eq_right (sq_nonneg kv), Real.sqrt_sq (le_of_lt kv_pos)]
  push_neg
  have h1 := one_lt_cexR
  have h2 := kv_lt
  have h3 : (1 : ℝ) / 10 ^ 12 < 1 / 2 := by norm_num
  linarith

theorem cex_mem_sub : ((0 : ℝ), (0 : ℝ)) ∈
    subdivide_arc cexC cexR (3 / 20) 64 ((-1 : ℝ), 0) ((1 : ℝ), 0) := by
  have hguard : ¬(cexR ≤ ptDist ((-1 : ℝ), 0) ((1 : ℝ), 0) / 2 ∨
      (10 : ℝ) ^ 9 < cexR) := by
    push_neg
    refine ⟨?_, le_trans cexR_le (by norm_num)⟩
    rw [ptAB_two]
    linarith [one_lt_cexR]
  rw [show (64 : ℕ) = 63 + 1 from rfl, subdivide_arc, if_neg hguard,
    if_neg cex_sagitta_big, cex_arcmid, List.mem_append]
  left
  obtain ⟨pre, hpre⟩ :=
    subdivide_arc_shape cexC cexR (3 / 20) 63 ((-1 : ℝ), 0) ((0 : ℝ), (0 : ℝ))
  rw [hpre]
  simp

/-- C5 counterexample: on the open polyline [(-1,0), (1,0), (0,1+1e-13)]
with max deviation 0.15, the first segment's circumscribed circle exists
(center ≈ (0, 1.05e-13), radius ≈ 1), yet the densified output contains the
inserted point (0,0), which is not an original vertex and does not lie on
that circle: the degenerate guard of `_arc_midpoint` fires (the chord
midpoint is within 1e-12 of the center) and inserts the chord midpoint
itself, refuting the claim that every inserted point lies on the
circumscribed circle of its triple. -/
theorem densify_coords_offcircle_counterexample :
    circumscribed_circle (tripleOf cex5 false 0).1 (tripleOf cex5 false 0).2.1
        (tripleOf cex5 false 0).2.2 = some (cexC, cexR) ∧
    ((0 : ℝ), (0 : ℝ)) ∈ densify_coords cex5 (3 / 20) false 64 ∧
    ((0 : ℝ), (0 : ℝ)) ∉ cex5 ∧
    ptDist ((0 : ℝ), (0 : ℝ)) cexC ≠ cexR := by
  have htriple : tripleOf cex5 false 0 =
      (((-1 : ℝ), 0), ((1 : ℝ), 0), ((0 : ℝ), 1 + 1 / 10 ^ 13)) := rfl
  refine ⟨by rw [htriple]; exact cex5_circle, ?_, ?_, ?_⟩
  · rw [densify_coords]
    rw [if_neg (by norm_num [cex5])]
    refine List.mem_cons.mpr (Or.inr ?_)
    rw [List.mem_flatMap]
    refine ⟨0, by norm_num [cex5], ?_⟩
    rw [densifySeg, htriple]
    dsimp only
    rw [cex5_circle]
    dsimp only
    rw [if_neg (not_lt.mpr cexR_le)]
    rw [show cex5.getD 0 (0, 0) = ((-1 : ℝ), 0) from rfl,
      show cex5.getD ((0 + 1) % cex5.length) (0, 0) = ((1 : ℝ), 0) from rfl]
    exact cex_mem_sub
  · intro hmem
    rw [cex5] at hmem
    rcases List.mem_cons.mp hmem with h | hmem
    · rw [Prod.mk.injEq] at h
      exact absurd h.1 (by norm_num)
    rcases List.mem_cons.mp hmem with h | hmem
    · rw [Prod.mk.injEq] at h
      exact absurd h.1 (by norm_num)
    rcases List.mem_cons.mp hmem with h | hmem
    · rw [Prod.mk.injEq] at h
      exact absurd h.2 (by norm_num)
    · exact absurd hmem (List.not_mem_nil _)
  · rw [pt00C]
    intro h
    have h1 := one_lt_cexR
    rw [← h] at h1
    have h2 := kv_lt
    have h3 : (1 : ℝ) / 10 ^ 12 < 1 := by norm_num
    linarith

/-! ## Constraint engine (`src/core-engine/constraints/engine.py`)

The shapely-derived data (containment tests, line-to-line distances,
nearest points, the walls-minus-inset difference shape) enter as oracle
fields of `GeoOracle`; Python set iteration order (used only by the
dead-end walk's `next_nodes[0]`) enters as an `enum` oracle on `Finset`. -/

noncomputable section

/-- One-decimal rounding (model of a Python `f"{x:.1f}"` interpolation). -/
def round1 (x : ℝ) : ℝ := (round (10 * x) : ℤ) / 10

/-- Model of `np.arange(a, b, s)` for positive step. -/
def arange (a b s : ℝ) : List ℝ :=
  (List.range (Int.toNat ⌈(b - a) / s⌉)).map (fun k => a + k * s)

/-- The shape of `walls.difference(inset)` as `check_edge_buffer` inspects
it: empty, a LineString (with its normalized-0.5 interpolation point), a
collection (each part's interpolation point, `none` if the part has no
`interpolate`), or a single geometry of another type. -/
inductive OutsideShape where
  | empty : OutsideShape
  | line : Pt → OutsideShape
  | geoms : List (Option Pt) → OutsideShape
  | other : OutsideShape

/-- A violation dictionary: the `message` f-string is represented by the
list of numbers interpolated into it, in order. -/
structure Violation where
  vtype : String
  severity : String
  msgData : List ℝ
  location : Pt
  actualValue : ℝ
  requiredValue : ℝ

/-- The `ConstraintEngine.__init__` configuration. -/
structure CEConfig where
  min_path_width : ℝ
  min_wall_width : ℝ
  inter_path_buffer : ℝ
  edge_buffer : ℝ
  max_dead_end_length : ℝ
  corn_row_spacing : ℝ

/-- Oracle record for the shapely-derived data used by `validate`. -/
structure GeoOracle where
  minx : ℝ
  miny : ℝ
  maxx : ℝ
  maxy : ℝ
  wallsEmpty : Bool
  fieldContains : Pt → Bool
  wallBufContains : Pt → Bool
  wallDist : Pt → ℝ
  lineCoords : List (List Pt)
  lineDist : ℕ → ℕ → ℝ
  nearPt : ℕ → ℕ → Pt × Pt
  insetEmpty : Bool
  outside : OutsideShape

/-- Model of `check_path_widths` (sample grid at the default 3 m step). -/
def check_path_widths (g : GeoOracle) (cfg : CEConfig) : List Violation :=
  if g.wallsEmpty then []
  else
    ((arange (g.minx + 3) g.maxx 3).flatMap (fun x =>
      (arange (g.miny + 3) g.maxy 3).filterMap (fun y =>
        if g.fieldContains (x, y) = false then none
        else if g.wallBufContains (x, y) = true then none
        else if g.wallDist (x, y) < cfg.min_path_width / 2 ∧
            1 / 10 < g.wallDist (x, y) then
          some { vtype := "path_too_narrow", severity := "warning",
                 msgData := [round1 (g.wallDist (x, y) * 2), cfg.min_path_width],
                 location := (round2 x, round2 y),
                 actualValue := round2 (g.wallDist (x, y) * 2),
                 requiredValue := cfg.min_path_width }
        else none))).take 50

/-- Model of `check_wall_widths` (pairs `(i, j)` with `i < j < i + 50`). -/
def check_wall_widths (g : GeoOracle) (cfg : CEConfig) : List Violation :=
  if g.wallsEmpty then []
  else
    ((List.range g.lineCoords.length).flatMap (fun i =>
      ((List.range g.lineCoords.length).filter
          (fun j => decide (i < j ∧ j < i + 50))).filterMap (fun j =>
        if 0 < g.lineDist i j ∧ g.lineDist i j < cfg.min_wall_width then
          some { vtype := "wall_too_thin", severity := "error",
                 msgData := [round1 (g.lineDist i j), cfg.min_wall_width],
                 location := (round2 (((g.nearPt i j).1.1 + (g.nearPt i j).2.1) / 2),
                              round2 (((g.nearPt i j).1.2 + (g.nearPt i j).2.2) / 2)),
                 actualValue := round2 (g.lineDist i j),
                 requiredValue := cfg.min_wall_width }
        else none))).take 50

/-- The violation emitted per part of the outside shape. -/
def edgeViol (cfg : CEConfig) (p : Pt) : Violation :=
  { vtype := "edge_buffer", severity := "warning",
    msgData := [cfg.edge_buffer],
    location := (round2 p.1, round2 p.2),
    actualValue := 0, requiredValue := cfg.edge_buffer }

/-- Model of `check_edge_buffer`. -/
def check_edge_buffer (g : GeoOracle) (cfg : CEConfig) : List Violation :=
  if g.wallsEmpty then []
  else if g.insetEmpty then []
  else
    (match g.outside with
      | OutsideShape.empty => []
      | OutsideShape.line p => [edgeViol cfg p]
      | OutsideShape.geoms ms =>
          (ms.take 10).filterMap (fun m => Option.map (edgeViol cfg) m)
      | OutsideShape.other => []).take 20

/-- The `(i, j)` pairs with `i < j` in the scan order of the nested loops
of `check_inter_path_buffer`. -/
def lexPairs (n : ℕ) : List (ℕ × ℕ) :=
  (List.range n).flatMap (fun i =>
    (List.range n).filterMap (fun j => if i < j then some (i, j) else none))

/-- The inter-path-buffer violation for pair `(i, j)` (message numbers:
corn-row count `int(dist/corn_row_spacing)`, `dist` to one decimal, the
required row count, and the buffer). -/
def ipbViol (g : GeoOracle) (cfg : CEConfig) (i j : ℕ) : Violation :=
  { vtype := "inter_path_buffer", severity := "warning",
    msgData := [((pyTrunc (g.lineDist i j / cfg.corn_row_spacing) : ℤ) : ℝ),
                round1 (g.lineDist i j),
                ((pyTrunc (cfg.inter_path_buffer / cfg.corn_row_spacing) : ℤ) : ℝ),
                cfg.inter_path_buffer],
    location := (round2 (((g.nearPt i j).1.1 + (g.nearPt i j).2.1) / 2),
                 round2 (((g.nearPt i j).1.2 + (g.nearPt i j).2.2) / 2)),
    actualValue := round2 (g.lineDist i j),
    requiredValue := cfg.inter_path_buffer }

/-- The per-pair test of `check_inter_path_buffer`:
`0 < dist < inter_path_buffer and dist > min_wall_width`. -/
def qualIPB (g : GeoOracle) (cfg : CEConfig) (p : ℕ × ℕ) : Option Violation :=
  if 0 < g.lineDist p.1 p.2 ∧ g.lineDist p.1 p.2 < cfg.inter_path_buffer ∧
      cfg.min_wall_width < g.lineDist p.1 p.2 then
    some (ipbViol g cfg p.1 p.2)
  else none

/-- The pair loop with the in-loop early return at 30 violations. -/
def ipbLoop (g : GeoOracle) (cfg : CEConfig) :
    List (ℕ × ℕ) → List Violation → List Violation
  | [], acc => acc
  | p :: rest, acc =>
      match qualIPB g cfg p with
      | none => if 30 ≤ acc.length then acc else ipbLoop g cfg rest acc
      | some v =>
          if 30 ≤ (acc ++ [v]).length then acc ++ [v]
          else ipbLoop g cfg rest (acc ++ [v])

/-- Model of `check_inter_path_buffer`. -/
def check_inter_path_buffer (g : GeoOracle) (cfg : CEConfig) : List Violation :=
  if g.wallsEmpty then [] else ipbLoop g cfg (lexPairs g.lineCoords.length) []

/-- Model of the `snap` closure of `check_dead_end_lengths`
(`tolerance = 0.5`). -/
def snapC (tol : ℝ) (p : Pt) : Pt :=
  (((round (p.1 / tol) : ℤ) : ℝ) * tol, ((round (p.2 / tol) : ℤ) : ℝ) * tol)

/-- The adjacency `defaultdict(set)`: an insertion-ordered key list plus
a neighbour-set valuation. -/
structure Adj where
  keys : List Pt
  nbrs : Pt → Finset Pt

/-- `defaultdict` key creation (appends in first-touch order). -/
def addKey (ks : List Pt) (a : Pt) : List Pt := if a ∈ ks then ks else ks ++ [a]

/-- `adjacency[a].add(b); adjacency[b].add(a)` for `a ≠ b`. -/
def addEdge (A : Adj) (a b : Pt) : Adj :=
  if a = b then A
  else
    { keys := addKey (addKey A.keys a) b,
      nbrs := fun k =>
        if k = a then insert b (A.nbrs a)
        else if k = b then insert a (A.nbrs b)
        else A.nbrs k }

/-- `process_line`: add a snapped edge per consecutive coordinate pair. -/
def processLine (tol : ℝ) (A : Adj) (coords : List Pt) : Adj :=
  (coords.zip coords.tail).foldl
    (fun A2 ab => addEdge A2 (snapC tol ab.1) (snapC tol ab.2)) A

/-- The adjacency built from all wall line strings. -/
def buildAdj (tol : ℝ) (lns : List (List Pt)) : Adj :=
  lns.foldl (processLine tol) { keys := [], nbrs := fun _ => ∅ }

/-- The dead-end walk: follow `next_nodes[0]` (the first enumerated
neighbour other than `prev`) until a junction (degree ≥ 3) or a dead stop,
accumulating Euclidean length; fuel-indexed. -/
def walk (enum : Finset Pt → List Pt) (A : Adj) :
    ℕ → Option Pt → Pt → ℝ → ℝ
  | 0, _, _, acc => acc
  | fuel + 1, prev, current, acc =>
      match (enum (A.nbrs current)).filter (fun n => decide (some n ≠ prev)) with
      | [] => acc
      | c :: _ =>
          if 3 ≤ (A.nbrs current).card then acc
          else walk enum A fuel (some current) c (acc + ptDist current c)

/-- The dead-end violation (message numbers: length to zero decimals and
the maximum). -/
def deadEndViol (cfg : CEConfig) (node : Pt) (l : ℝ) : Violation :=
  { vtype := "dead_end_too_long", severity := "warning",
    msgData := [((round l : ℤ) : ℝ), cfg.max_dead_end_length],
    location := (round2 node.1, round2 node.2),
    actualValue := round1 l,
    requiredValue := cfg.max_dead_end_length }

/-- Model of `check_dead_end_lengths`: walk from each degree-1 node in key
insertion order. -/
def check_dead_end_lengths (g : GeoOracle) (cfg : CEConfig)
    (enum : Finset Pt → List Pt) (fuel : ℕ) : List Violation :=
  (((buildAdj (1 / 2) g.lineCoords).keys.filter
      (fun node => decide (((buildAdj (1 / 2) g.lineCoords).nbrs node).card = 1))).filterMap
    (fun node =>
      if cfg.max_dead_end_length <
          walk enum (buildAdj (1 / 2) g.lineCoords) fuel none node 0 then
        some (deadEndViol cfg node
          (walk enum (buildAdj (1 / 2) g.lineCoords) fuel none node 0))
      else none)).take 20

/-- Model of `ConstraintEngine.validate`: the five checks concatenated. -/
def validate (g : GeoOracle) (cfg : CEConfig) (enum : Finset Pt → List Pt)
    (fuel : ℕ) : List Violation :=
  if g.wallsEmpty then []
  else
    check_path_widths g cfg ++ check_wall_widths g cfg ++
      check_edge_buffer g cfg ++ check_inter_path_buffer g cfg ++
      check_dead_end_lengths g cfg enum fuel

/-- A valid model of Python set iteration: an enumeration without
duplicates of exactly the set's elements. -/
def SetEnum (enum : Finset Pt → List Pt) : Prop :=
  ∀ s : Finset Pt, (enum s).Nodup ∧ ∀ x, x ∈ enum s ↔ x ∈ s

/-- Symmetry of an adjacency valuation. -/
def AdjSym (A : Adj) : Prop := ∀ a b : Pt, a ∈ A.nbrs b ↔ b ∈ A.nbrs a

end

theorem addEdge_mem (A : Adj) (a b x y : Pt) :
    x ∈ (addEdge A a b).nbrs y ↔
      x ∈ A.nbrs y ∨ a ≠ b ∧ (y = a ∧ x = b ∨ y = b ∧ x = a) := by
  rw [addEdge]
  split
  case isTrue hab =>
    subst hab
    simp
  case isFalse hab =>
    dsimp only
    by_cases hya : y = a
    · subst hya
      rw [if_pos rfl]
      simp only [Finset.mem_insert, ne_eq, hab, not_false_iff, true_and,
        eq_self_iff_true]
      tauto
    · rw [if_neg hya]
      by_cases hyb : y = b
      · subst hyb
        rw [if_pos rfl]
        simp only [Finset.mem_insert, ne_eq, hab, not_false_iff, true_and,
          eq_self_iff_true]
        tauto
      · rw [if_neg hyb]
        simp only [ne_eq, hab, not_false_iff, true_and]
        tauto

theorem addEdge_sym {A : Adj} (hA : AdjSym A) (a b : Pt) :
    AdjSym (addEdge A a b) := by
  intro x y
  rw [addEdge_mem, addEdge_mem, hA x y]
  tauto

theorem processLine_sym {A : Adj} (hA : AdjSym A) (tol : ℝ) (coords : List Pt) :
    AdjSym (processLine tol A coords) := by
  rw [processLine]
  generalize coords.zip coords.tail = l
  induction l generalizing A with
  | nil => exact hA
  | cons p t ih =>
      rw [List.foldl_cons]
      exact ih (addEdge_sym hA _ _)

theorem buildAdj_sym (tol : ℝ) (lns : List (List Pt)) :
    AdjSym (buildAdj tol lns) := by
  rw [buildAdj]
  have h0 : AdjSym { keys := ([] : List Pt), nbrs := fun _ => (∅ : Finset Pt) } := by
    intro a b
    simp
  generalize hA : ({ keys := ([] : List Pt), nbrs := fun _ => (∅ : Finset Pt) } : Adj) = A
  rw [hA] at h0
  clear hA
  induction lns generalizing A with
  | nil => exact h0
  | cons c t ih =>
      rw [List.foldl_cons]
      exact ih _ (processLine_sym h0 tol c)

theorem nodup_eq_singleton {l : List Pt} {y : Pt} (hnd : l.Nodup)
    (hm : ∀ x, x ∈ l ↔ x = y) : l = [y] := by
  cases l with
  | nil => exact absurd ((hm y).mpr rfl) (List.not_mem_nil y)
  | cons a t =>
      have ha : a = y := (hm a).mp (List.mem_cons_self a t)
      subst ha
      cases t with
      | nil => rfl
      | cons b u =>
          have hb : b = a :=
            (hm b).mp (List.mem_cons_of_mem a (List.mem_cons_self b u))
          subst hb
          rw [List.nodup_cons] at hnd
          exact absurd (List.mem_cons_self b u) hnd.1

theorem walk_det {A : Adj} (hsym : AdjSym A) {e1 e2 : Finset Pt → List Pt}
    (h1 : SetEnum e1) (h2 : SetEnum e2) :
    ∀ (fuel : ℕ) (prev : Option Pt) (cur : Pt) (acc : ℝ),
      (prev = none ∧ (A.nbrs cur).card = 1 ∨
        ∃ p, prev = some p ∧ p ∈ A.nbrs cur) →
      walk e1 A fuel prev cur acc = walk e2 A fuel prev cur acc := by
  intro fuel
  induction fuel with
  | zero => intro prev cur acc _; rfl
  | succ n ih =>
      intro prev cur acc hinv
      rw [walk, walk]
      have hmem1 : ∀ x,
          (x ∈ (e1 (A.nbrs cur)).filter (fun m => decide (some m ≠ prev)) ↔
            x ∈ A.nbrs cur ∧ some x ≠ prev) := by
        intro x
        rw [List.mem_filter, decide_eq_true_iff, (h1 (A.nbrs cur)).2 x]
      have hmem2 : ∀ x,
          (x ∈ (e2 (A.nbrs cur)).filter (fun m => decide (some m ≠ prev)) ↔
            x ∈ A.nbrs cur ∧ some x ≠ prev) := by
        intro x
        rw [List.mem_filter, decide_eq_true_iff, (h2 (A.nbrs cur)).2 x]
      have hnd1 : ((e1 (A.nbrs cur)).filter
          (fun m => decide (some m ≠ prev))).Nodup :=
        (h1 (A.nbrs cur)).1.filter _
      have hnd2 : ((e2 (A.nbrs cur)).filter
          (fun m => decide (some m ≠ prev))).Nodup :=
        (h2 (A.nbrs cur)).1.filter _
      cases hl1 : (e1 (A.nbrs cur)).filter (fun m => decide (some m ≠ prev)) with
      | nil =>
          cases hl2 : (e2 (A.nbrs cur)).filter (fun m => decide (some m ≠ prev)) with
          | nil => rfl
          | cons c2 t2 =>
              exfalso
              have hc2 := (hmem2 c2).mp (by rw [hl2]; exact List.mem_cons_self _ _)
              have hc1 := (hmem1 c2).mpr hc2
              rw [hl1] at hc1
              exact List.not_mem_nil _ hc1
      | cons c1 t1 =>
          cases hl2 : (e2 (A.nbrs cur)).filter (fun m => decide (some m ≠ prev)) with
          | nil =>
              exfalso
              have hc1 := (hmem1 c1).mp (by rw [hl1]; exact List.mem_cons_self _ _)
              have hc2 := (hmem2 c1).mpr hc1
              rw [hl2] at hc2
              exact List.not_mem_nil _ hc2
          | cons c2 t2 =>
              dsimp only
              by_cases hcard : 3 ≤ (A.nbrs cur).card
              · rw [if_pos hcard, if_pos hcard]
              · rw [if_neg hcard, if_neg hcard]
                have hy : ∃ y, ∀ x, (x ∈ A.nbrs cur ∧ some x ≠ prev) ↔ x = y := by
                  rcases hinv with ⟨hprev, hcard1⟩ | ⟨p, hprev, hp⟩
                  · subst hprev
                    obtain ⟨y, hyy⟩ := Finset.card_eq_one.mp hcard1
                    refine ⟨y, fun x => ?_⟩
                    rw [hyy]
                    simp
                  · subst hprev
                    have hT1 : ((A.nbrs cur).erase p).card = 1 := by
                      have hcardp := Finset.card_erase_of_mem hp
                      have hne : ((A.nbrs cur).erase p).Nonempty := by
                        refine ⟨c1, ?_⟩
                        have hc1 := (hmem1 c1).mp
                          (by rw [hl1]; exact List.mem_cons_self _ _)
                        rw [Finset.mem_erase]
                        refine ⟨?_, hc1.1⟩
                        intro hc
                        exact hc1.2 (by rw [hc])
                      have hge := Finset.card_pos.mpr hne
                      omega
                    obtain ⟨y, hyy⟩ := Finset.card_eq_one.mp hT1
                    refine ⟨y, fun x => ?_⟩
                    constructor
                    · intro ⟨hx, hxp⟩
                      have : x ∈ (A.nbrs cur).erase p := by
                        rw [Finset.mem_erase]
                        exact ⟨fun hc => hxp (by rw [hc]), hx⟩
                      rw [hyy, Finset.mem_singleton] at this
                      exact this
                    · intro hx
                      subst hx
                      have : x ∈ (A.nbrs cur).erase p := by
                        rw [hyy]
                        exact Finset.mem_singleton_self x
                      rw [Finset.mem_erase] at this
                      exact ⟨this.2, fun hc => this.1 (Option.some.injEq _ _ ▸ hc)⟩
                obtain ⟨y, hy⟩ := hy
                have hl1y : c1 :: t1 = [y] := by
                  refine nodup_eq_singleton (hl1 ▸ hnd1) (fun x => ?_)
                  rw [← hl1, hmem1 x, hy x]
                have hl2y : c2 :: t2 = [y] := by
                  refine nodup_eq_singleton (hl2 ▸ hnd2) (fun x => ?_)
                  rw [← hl2, hmem2 x, hy x]
                have hc1y : c1 = y := by
                  have := congrArg (fun l => l.headI) hl1y
                  simpa using this
                have hc2y : c2 = y := by
                  have := congrArg (fun l => l.headI) hl2y
                  simpa using this
                subst hc1y
                rw [hc2y]
                refine ih (some cur) c1 (acc + ptDist cur c1) (Or.inr ⟨cur, rfl, ?_⟩)
                have hc1mem : c1 ∈ A.nbrs cur := ((hy c1).mpr rfl).1
                exact (hsym c1 cur).mp hc1mem

theorem check_dead_end_det (g : GeoOracle) (cfg : CEConfig)
    {e1 e2 : Finset Pt → List Pt} (h1 : SetEnum e1) (h2 : SetEnum e2)
    (fuel : ℕ) :
    check_dead_end_lengths g cfg e1 fuel = check_dead_end_lengths g cfg e2 fuel := by
  rw [check_dead_end_lengths, check_dead_end_lengths]
  congr 1
  apply List.filterMap_congr
  intro node hnode
  rw [List.mem_filter, decide_eq_true_iff] at hnode
  have hw : walk e1 (buildAdj (1 / 2) g.lineCoords) fuel none node 0 =
      walk e2 (buildAdj (1 / 2) g.lineCoords) fuel none node 0 :=
    walk_det (buildAdj_sym (1 / 2) g.lineCoords) h1 h2 fuel none node 0
      (Or.inl ⟨rfl, hnode.2⟩)
  rw [hw]

/-- C6: `ConstraintEngine.validate` is deterministic — its violation list
does not depend on the Python set iteration order (modelled by the `enum`
oracle): any two valid enumerations yield identical lists, same
violations in the same order with the same locations and values. All
other inputs (geometry oracles, configuration) are fixed functions, so
two runs on the same inputs agree. -/
theorem validate_deterministic (g : GeoOracle) (cfg : CEConfig) (fuel : ℕ)
    (e1 e2 : Finset Pt → List Pt) (h1 : SetEnum e1) (h2 : SetEnum e2) :
    validate g cfg e1 fuel = validate g cfg e2 fuel := by
  rw [validate, validate, check_dead_end_det g cfg h1 h2 fuel]

noncomputable section

/-- A concrete geometry oracle for the determinism witness. -/
def gW : GeoOracle :=
  { minx := 0, miny := 0, maxx := 10, maxy := 10, wallsEmpty := false,
    fieldContains := fun _ => true, wallBufContains := fun _ => false,
    wallDist := fun _ => 5, lineCoords := [[(0, 0), (6, 0)]],
    lineDist := fun _ _ => 3, nearPt := fun _ _ => ((0, 0), (0, 3)),
    insetEmpty := true, outside := OutsideShape.empty }

/-- The default `ConstraintEngine` configuration. -/
def cfgW : CEConfig :=
  { min_path_width := 12 / 5, min_wall_width := 2, inter_path_buffer := 23 / 5,
    edge_buffer := 3, max_dead_end_length := 50, corn_row_spacing := 381 / 500 }

end

/-- Witness: determinism applied at a concrete oracle with the canonical
set enumeration. -/
theorem validate_deterministic_witness :
    validate gW cfgW (fun s => s.toList) 5 = validate gW cfgW (fun s => s.toList) 5 :=
  validate_deterministic gW cfgW 5 _ _
    (fun s => ⟨Finset.nodup_toList s, fun _ => Finset.mem_toList⟩)
    (fun s => ⟨Finset.nodup_toList s, fun _ => Finset.mem_toList⟩)

theorem ipbLoop_take (g : GeoOracle) (cfg : CEConfig) :
    ∀ (l : List (ℕ × ℕ)) (acc : List Violation), acc.length < 30 →
      ipbLoop g cfg l acc = (acc ++ l.filterMap (qualIPB g cfg)).take 30 := by
  intro l
  induction l with
  | nil =>
      intro acc hacc
      rw [ipbLoop, List.filterMap_nil, List.append_nil,
        List.take_of_length_le (le_of_lt hacc)]
  | cons p t ih =>
      intro acc hacc
      rw [ipbLoop, List.filterMap_cons]
      cases hq : qualIPB g cfg p with
      | none =>
          dsimp only
          rw [if_neg (by omega)]
          exact ih acc hacc
      | some v =>
          dsimp only
          by_cases h30 : 30 ≤ (acc ++ [v]).length
          · rw [if_pos h30]
            have hlen : (acc ++ [v]).length = 30 := by
              rw [List.length_append, List.length_singleton]
              rw [List.length_append, List.length_singleton] at h30
              omega
            rw [show acc ++ v :: t.filterMap (qualIPB g cfg) =
              (acc ++ [v]) ++ t.filterMap (qualIPB g cfg) by simp]
            rw [List.take_left' hlen]
          · rw [if_neg h30]
            have hlt : (acc ++ [v]).length < 30 := by
              rw [List.length_append, List.length_singleton] at h30 ⊢
              omega
            rw [ih (acc ++ [v]) hlt]
            congr 1
            simp

theorem check_ipb_eq (g : GeoOracle) (cfg : CEConfig) (hw : g.wallsEmpty = false) :
    check_inter_path_buffer g cfg =
      ((lexPairs g.lineCoords.length).filterMap (qualIPB g cfg)).take 30 := by
  rw [check_inter_path_buffer, hw]
  simp only [Bool.false_eq_true, if_false]
  rw [ipbLoop_take g cfg _ [] (by norm_num), List.nil_append]

/-- C7 (amended): with a nonnegative `min_wall_width` and positive
`corn_row_spacing`, `check_inter_path_buffer` emits, for the pairs
`(i, j)` with `i < j` in scan order whose distance satisfies
`min_wall_width < dist < inter_path_buffer`, a warning located at the
rounded midpoint of the pair's nearest points with
`actualValue = round(dist, 2)`, `requiredValue = inter_path_buffer` and a
message carrying the implied corn-row count `⌊dist/corn_row_spacing⌋` —
but only the first 30 such violations: the in-loop cap truncates the
rest. -/
theorem check_inter_path_buffer_spec (g : GeoOracle) (cfg : CEConfig)
    (hw : g.wallsEmpty = false) (hmw : 0 ≤ cfg.min_wall_width)
    (hcs : 0 < cfg.corn_row_spacing) :
    check_inter_path_buffer g cfg =
      (((lexPairs g.lineCoords.length).filter (fun p =>
          decide (cfg.min_wall_width < g.lineDist p.1 p.2 ∧
            g.lineDist p.1 p.2 < cfg.inter_path_buffer))).map (fun p =>
        ({ vtype := "inter_path_buffer", severity := "warning",
           msgData := [((⌊g.lineDist p.1 p.2 / cfg.corn_row_spacing⌋ : ℤ) : ℝ),
                       round1 (g.lineDist p.1 p.2),
                       ((pyTrunc (cfg.inter_path_buffer / cfg.corn_row_spacing) : ℤ) : ℝ),
                       cfg.inter_path_buffer],
           location := (round2 (((g.nearPt p.1 p.2).1.1 + (g.nearPt p.1 p.2).2.1) / 2),
                        round2 (((g.nearPt p.1 p.2).1.2 + (g.nearPt p.1 p.2).2.2) / 2)),
           actualValue := round2 (g.lineDist p.1 p.2),
           requiredValue := cfg.inter_path_buffer } : Violation))).take 30 := by
  rw [check_ipb_eq g cfg hw]
  congr 1
  generalize lexPairs g.lineCoords.length = l
  induction l with
  | nil => rfl
  | cons p t ih =>
      rw [List.filterMap_cons, List.filter_cons]
      by_cases hc : cfg.min_wall_width < g.lineDist p.1 p.2 ∧
          g.lineDist p.1 p.2 < cfg.inter_path_buffer
      · have hd0 : 0 < g.lineDist p.1 p.2 := lt_of_le_of_lt hmw hc.1
        rw [qualIPB, if_pos ⟨hd0, hc.2, hc.1⟩]
        rw [if_pos (decide_eq_true hc), List.map_cons, ih]
        congr 1
        rw [ipbViol]
        have htr : pyTrunc (g.lineDist p.1 p.2 / cfg.corn_row_spacing) =
            ⌊g.lineDist p.1 p.2 / cfg.corn_row_spacing⌋ := by
          rw [pyTrunc, if_neg]
          push_neg
          exact div_nonneg (le_of_lt hd0) (le_of_lt hcs)
        rw [htr]
      · rw [qualIPB, if_neg, if_neg, ih]
        · intro hcontra
          rw [decide_eq_true_iff] at hcontra
          exact hc hcontra
        · intro hcontra
          exact hc ⟨hcontra.2.2, hcontra.2.1⟩

noncomputable section

/-- Nine wall lines, pairwise at distance 3 (between the default
`min_wall_width` 2 and `inter_path_buffer` 4.6). -/
def g7 : GeoOracle :=
  { minx := 0, miny := 0, maxx := 10, maxy := 10, wallsEmpty := false,
    fieldContains := fun _ => true, wallBufContains := fun _ => false,
    wallDist := fun _ => 5, lineCoords := List.replicate 9 [],
    lineDist := fun _ _ => 3, nearPt := fun _ _ => ((0, 0), (0, 3)),
    insetEmpty := true, outside := OutsideShape.empty }

end

/-- Witness for C7's amended characterization at the concrete oracle. -/
theorem check_inter_path_buffer_spec_witness :
    check_inter_path_buffer g7 cfgW =
      (((lexPairs g7.lineCoords.length).filter (fun p =>
          decide (cfgW.min_wall_width < g7.lineDist p.1 p.2 ∧
            g7.lineDist p.1 p.2 < cfgW.inter_path_buffer))).map (fun p =>
        ({ vtype := "inter_path_buffer", severity := "warning",
           msgData := [((⌊g7.lineDist p.1 p.2 / cfgW.corn_row_spacing⌋ : ℤ) : ℝ),
                       round1 (g7.lineDist p.1 p.2),
                       ((pyTrunc (cfgW.inter_path_buffer / cfgW.corn_row_spacing) : ℤ) : ℝ),
                       cfgW.inter_path_buffer],
           location := (round2 (((g7.nearPt p.1 p.2).1.1 + (g7.nearPt p.1 p.2).2.1) / 2),
                        round2 (((g7.nearPt p.1 p.2).1.2 + (g7.nearPt p.1 p.2).2.2) / 2)),
           actualValue := round2 (g7.lineDist p.1 p.2),
           requiredValue := cfgW.inter_path_buffer } : Violation))).take 30 :=
  check_inter_path_buffer_spec g7 cfgW rfl (by norm_num [cfgW]) (by norm_num [cfgW])

/-- C7 counterexample: with 9 wall lines pairwise at qualifying distance 3
there are 36 qualifying pairs, yet only 30 violations are returned — the
in-loop cap `if len(violations) >= 30: return` truncates, so
"a violation is emitted for a pair exactly when min_wall_width < dist <
inter_path_buffer" is false as stated. -/
theorem check_inter_path_buffer_cap_counterexample :
    ((lexPairs g7.lineCoords.length).filterMap (qualIPB g7 cfgW)).length = 36 ∧
    (check_inter_path_buffer g7 cfgW).length = 30 := by
  have hq : ∀ p ∈ lexPairs g7.lineCoords.length,
      qualIPB g7 cfgW p = some (ipbViol g7 cfgW p.1 p.2) := by
    intro p _
    rw [qualIPB, if_pos]
    refine ⟨?_, ?_, ?_⟩ <;> norm_num [g7, cfgW]
  have hfm : (lexPairs g7.lineCoords.length).filterMap (qualIPB g7 cfgW) =
      (lexPairs g7.lineCoords.length).map (fun p => ipbViol g7 cfgW p.1 p.2) :=
    List.filterMap_eq_map_iff_forall_eq_some.mpr hq
  have hlen : g7.lineCoords.length = 9 := by simp [g7]
  have hlex : (lexPairs 9).length = 36 := by decide
  constructor
  · rw [hfm, List.length_map, hlen, hlex]
  · rw [check_ipb_eq g7 cfgW rfl, hfm, List.length_take, List.length_map,
      hlen, hlex]
    decide

/-! ## Emergency exits (`src/core-engine/analysis/emergency.py`)

`suggest_emergency_exits`: greedy placement on a walkable raster; the
field boundary's exterior ring and the project-then-interpolate nearest
boundary point enter as oracles. Float infinity is `⊤` in `WithTop ℝ`. -/

noncomputable section

/-- Oracle inputs of `suggest_emergency_exits`. -/
structure EmerInput where
  minx : ℝ
  miny : ℝ
  maxx : ℝ
  maxy : ℝ
  fieldContains : Pt → Bool
  wallsPresent : Bool
  wallBufContains : Pt → Bool
  ring : Set Pt
  proj : Pt → Pt
  hproj : ∀ p, proj p ∈ ring

/-- `cols = max(1, int((maxx - minx) / resolution))`. -/
def emCols (E : EmerInput) (res : ℝ) : ℕ :=
  max 1 (pyTrunc ((E.maxx - E.minx) / res)).toNat

/-- `rows = max(1, int((maxy - miny) / resolution))`. -/
def emRows (E : EmerInput) (res : ℝ) : ℕ :=
  max 1 (pyTrunc ((E.maxy - E.miny) / res)).toNat

/-- Cell centre `(minx + (c + 0.5) * res, miny + (r + 0.5) * res)`. -/
def emCenter (E : EmerInput) (res : ℝ) (r c : ℕ) : Pt :=
  (E.minx + ((c : ℝ) + 1 / 2) * res, E.miny + ((r : ℝ) + 1 / 2) * res)

/-- Walkable: inside the field and not inside the wall buffer. -/
def emWalkable (E : EmerInput) (res : ℝ) (r c : ℕ) : Bool :=
  E.fieldContains (emCenter E res r c) &&
    !(E.wallsPresent && E.wallBufContains (emCenter E res r c))

/-- The walkable cell centres in row-major scan order. -/
def emerCells (E : EmerInput) (res : ℝ) : List Pt :=
  (List.range (emRows E res)).flatMap (fun r =>
    (List.range (emCols E res)).filterMap (fun c =>
      if emWalkable E res r c then some (emCenter E res r c) else none))

/-- `min_dist`: the minimum distance from `p` to any exit (`∞` if none). -/
def minDistE (p : Pt) (exits : List Pt) : WithTop ℝ :=
  exits.foldl (fun m e => min m ((ptDist p e : ℝ) : WithTop ℝ)) ⊤

/-- One step of the farthest-cell scan (`if min_dist > max_min_dist`). -/
def scanStep (exits : List Pt) (st : WithTop ℝ × Option Pt) (cell : Pt) :
    WithTop ℝ × Option Pt :=
  if st.1 < minDistE cell exits then (minDistE cell exits, some cell) else st

/-- The farthest-walkable-cell scan: returns `(max_min_dist, best_pos)`. -/
def scanCells (cells exits : List Pt) : WithTop ℝ × Option Pt :=
  cells.foldl (scanStep exits) (((0 : ℝ) : WithTop ℝ), none)

/-- The greedy iteration (at most `fuel` rounds; the code uses 20):
stop once the farthest min-distance is within `maxDistance`, otherwise
project the best cell onto the exterior ring, round to 2 decimals, and
add it to both lists. -/
def suggestLoop (E : EmerInput) (res maxDistance : ℝ) :
    ℕ → List Pt → List Pt → List Pt
  | 0, _, sug => sug
  | n + 1, allExits, sug =>
      if (scanCells (emerCells E res) allExits).1 ≤ ((maxDistance : ℝ) : WithTop ℝ) then
        sug
      else
        match (scanCells (emerCells E res) allExits).2 with
        | none => suggestLoop E res maxDistance n allExits sug
        | some bp =>
            suggestLoop E res maxDistance n
              (allExits ++ [round2Pt (E.proj bp)])
              (sug ++ [round2Pt (E.proj bp)])

/-- Model of `suggest_emergency_exits`. -/
def suggest_emergency_exits (E : EmerInput) (existing : List Pt)
    (maxDistance res : ℝ) : List Pt :=
  suggestLoop E res maxDistance 20 existing []

end

theorem round2_close (x : ℝ) : |round2 x - x| ≤ 1 / 200 := by
  rw [round2]
  have h := abs_sub_round (100 * x)
  rw [abs_sub_comm] at h
  rw [show ((round (100 * x) : ℤ) : ℝ) / 100 - x =
    ((round (100 * x) : ℤ) - 100 * x) / 100 by ring]
  rw [abs_div, abs_of_pos (by norm_num : (0 : ℝ) < 100)]
  linarith

theorem round2Pt_close (p : Pt) : ptDist (round2Pt p) p ≤ 1 / 100 := by
  rw [ptDist, dist2, round2Pt]
  dsimp only
  have h1 := round2_close p.1
  have h2 := round2_close p.2
  have e1 : (round2 p.1 - p.1) ^ 2 ≤ (1 / 200) ^ 2 :=
    sq_le_sq' (by linarith [(abs_le.mp h1).1]) (abs_le.mp h1).2
  have e2 : (round2 p.2 - p.2) ^ 2 ≤ (1 / 200) ^ 2 :=
    sq_le_sq' (by linarith [(abs_le.mp h2).1]) (abs_le.mp h2).2
  have hb : (round2 p.1 - p.1) ^ 2 + (round2 p.2 - p.2) ^ 2 ≤ (1 / 100) ^ 2 := by
    nlinarith
  calc Real.sqrt ((round2 p.1 - p.1) ^ 2 + (round2 p.2 - p.2) ^ 2)
      ≤ Real.sqrt ((1 / 100) ^ 2) := Real.sqrt_le_sqrt hb
    _ = 1 / 100 := Real.sqrt_sq (by norm_num)

theorem scan_inv (exits : List Pt) :
    ∀ (cells : List Pt) (st : WithTop ℝ × Option Pt),
      st.1 ≤ (cells.foldl (scanStep exits) st).1 ∧
      (∀ cell ∈ cells, minDistE cell exits ≤ (cells.foldl (scanStep exits) st).1) ∧
      (cells.foldl (scanStep exits) st = st ∨
        ∃ bp ∈ cells, (cells.foldl (scanStep exits) st).2 = some bp ∧
          (cells.foldl (scanStep exits) st).1 = minDistE bp exits) := by
  intro cells
  induction cells with
  | nil =>
      intro st
      exact ⟨le_refl _, by simp, Or.inl rfl⟩
  | cons c t ih =>
      intro st
      rw [List.foldl_cons]
      obtain ⟨ih1, ih2, ih3⟩ := ih (scanStep exits st c)
      have hstep : st.1 ≤ (scanStep exits st c).1 ∧
          minDistE c exits ≤ (scanStep exits st c).1 := by
        rw [scanStep]
        split
        case isTrue h => exact ⟨le_of_lt h, le_refl _⟩
        case isFalse h => exact ⟨le_refl _, not_lt.mp h⟩
      refine ⟨le_trans hstep.1 ih1, ?_, ?_⟩
      · intro cell hcell
        rcases List.mem_cons.mp hcell with hcell | hcell
        · subst hcell
          exact le_trans hstep.2 ih1
        · exact ih2 cell hcell
      · rcases ih3 with heq | ⟨bp, hbp, hsome, hval⟩
        · rw [heq]
          rw [scanStep]
          split
          case isTrue h =>
            exact Or.inr ⟨c, List.mem_cons_self c t, rfl, rfl⟩
          case isFalse h => exact Or.inl rfl
        · exact Or.inr ⟨bp, List.mem_cons_of_mem c hbp, hsome, hval⟩

theorem suggestLoop_len (E : EmerInput) (res maxDistance : ℝ) :
    ∀ (n : ℕ) (exits sug : List Pt),
      (suggestLoop E res maxDistance n exits sug).length ≤ sug.length + n := by
  intro n
  induction n with
  | zero => intro exits sug; rw [suggestLoop]; omega
  | succ m ih =>
      intro exits sug
      rw [suggestLoop]
      split
      · omega
      · split
        · have := ih exits sug
          omega
        next bp _heq =>
          have := ih (exits ++ [round2Pt (E.proj bp)]) (sug ++ [round2Pt (E.proj bp)])
          rw [List.length_append, List.length_singleton] at this
          omega

theorem suggestLoop_mem (E : EmerInput) (res maxDistance : ℝ) :
    ∀ (n : ℕ) (exits sug : List Pt) (q : Pt),
      q ∈ suggestLoop E res maxDistance n exits sug →
      q ∈ sug ∨ ∃ bp, q = round2Pt (E.proj bp) := by
  intro n
  induction n with
  | zero =>
      intro exits sug q hq
      rw [suggestLoop] at hq
      exact Or.inl hq
  | succ m ih =>
      intro exits sug q hq
      rw [suggestLoop] at hq
      split at hq
      · exact Or.inl hq
      · split at hq
        · exact ih _ _ q hq
        · rcases ih _ _ q hq with hq | hq
          · rcases List.mem_append.mp hq with hq | hq
            · exact Or.inl hq
            · rw [List.mem_singleton] at hq
              exact Or.inr ⟨_, hq⟩
          · exact Or.inr hq

/-- C9: the greedy exit suggester returns at most 20 points; every
suggested point is the 2-decimal rounding of a point of the field's
exterior ring and lies within 0.01 m of it; the scan underlying each
round returns the maximum over walkable cells of the min-distance to the
current exits, attained at the chosen cell; and as soon as that maximum
is within `max_distance` the loop stops, suggesting nothing further. -/
theorem suggest_emergency_exits_properties (E : EmerInput)
    (existing : List Pt) (maxDistance res : ℝ) :
    (suggest_emergency_exits E existing maxDistance res).length ≤ 20 ∧
    (∀ q ∈ suggest_emergency_exits E existing maxDistance res,
      ∃ b ∈ E.ring, q = round2Pt b ∧ ptDist q b ≤ 1 / 100) ∧
    (∀ exits : List Pt,
      (∀ cell ∈ emerCells E res,
        minDistE cell exits ≤ (scanCells (emerCells E res) exits).1) ∧
      (∀ bp, (scanCells (emerCells E res) exits).2 = some bp →
        bp ∈ emerCells E res ∧
          minDistE bp exits = (scanCells (emerCells E res) exits).1)) ∧
    (∀ (n : ℕ) (exits sug : List Pt),
      (scanCells (emerCells E res) exits).1 ≤ ((maxDistance : ℝ) : WithTop ℝ) →
      suggestLoop E res maxDistance (n + 1) exits sug = sug) := by
  refine ⟨?_, ?_, ?_, ?_⟩
  · have h := suggestLoop_len E res maxDistance 20 existing []
    rw [suggest_emergency_exits]
    simpa using h
  · intro q hq
    rw [suggest_emergency_exits] at hq
    rcases suggestLoop_mem E res maxDistance 20 existing [] q hq with hq | ⟨bp, hbp⟩
    · exact absurd hq (List.not_mem_nil q)
    · refine ⟨E.proj bp, E.hproj bp, hbp, ?_⟩
      rw [hbp]
      exact round2Pt_close (E.proj bp)
  · intro exits
    obtain ⟨_h1, h2, h3⟩ := scan_inv exits (emerCells E res)
      (((0 : ℝ) : WithTop ℝ), none)
    refine ⟨h2, ?_⟩
    intro bp hbp
    rw [scanCells] at hbp
    rcases h3 with heq | ⟨bp2, hbp2, hsome, hval⟩
    · rw [heq] at hbp
      exact absurd hbp (by simp)
    · rw [hsome] at hbp
      rw [Option.some.injEq] at hbp
      subst hbp
      exact ⟨hbp2, by rw [scanCells, hval]⟩
  · intro n exits sug h
    rw [suggestLoop, if_pos h]

noncomputable section

/-- Witness oracle: a field containing no walkable cells, exterior ring
everything. -/
def E0 : EmerInput :=
  { minx := 0, miny := 0, maxx := 10, maxy := 10,
    fieldContains := fun _ => false, wallsPresent := false,
    wallBufContains := fun _ => false, ring := Set.univ,
    proj := fun p => p, hproj := fun p => Set.mem_univ p }

end

/-- Witness for C9 at a concrete input, with the stopping hypothesis
discharged (no walkable cells, so the scan yields 0 ≤ 50). -/
theorem suggest_emergency_exits_properties_witness :
    (suggest_emergency_exits E0 [] 50 3).length ≤ 20 ∧
    (∀ q ∈ suggest_emergency_exits E0 [] 50 3,
      ∃ b ∈ E0.ring, q = round2Pt b ∧ ptDist q b ≤ 1 / 100) ∧
    suggestLoop E0 3 50 (0 + 1) [] [] = [] := by
  obtain ⟨h1, h2, _h3, h4⟩ := suggest_emergency_exits_properties E0 [] 50 3
  have hcells : emerCells E0 3 = [] := by
    simp [emerCells, emWalkable, E0]
  refine ⟨h1, h2, h4 0 [] [] ?_⟩
  rw [hcells]
  rw [show scanCells [] [] = (((0 : ℝ) : WithTop ℝ), none) from rfl]
  exact WithTop.coe_le_coe.mpr (by norm_num)
